import Mathlib

/-!
Shallow embedding of `src/boost_unordered_flat_map_stats.cpp` (a simulation of
the probing statistics of two group-based open-addressing hash tables) and
proofs about its components.

Conventions of the embedding:
* `std::size_t` values become `Nat`; where 64-bit truncation matters
  (`position_for` shifts the raw hash) an explicit `% 2^64` is inserted.
* The unbounded `for(;;)` probing loops of `find`/`insert` become fueled
  recursions returning `Option`; `none` means the loop did not terminate
  within the given fuel.
* `boost_map::group` stores a fixed array of 15 elements plus a count `n`;
  only the first `n` cells are ever read, so the group is embedded as the
  list of its first `n` elements (`elements`) together with its overflow
  byte.  `g.n` is `g.elements.length`.
* `abseil_map` stores `capacity*16` slots of `std::optional<std::size_t>`,
  embedded as `List (Option Nat)`.
-/

set_option maxRecDepth 10000

/-- `pow2_quadratic_prober`: current position and step counter. -/
structure Prober where
  pos : Nat
  step : Nat
deriving DecidableEq, Repr

/-- The constructor `pow2_quadratic_prober(pos_)`: step starts at 0. -/
def Prober.start (pos : Nat) : Prober := ⟨pos, 0⟩

/-- `pow2_quadratic_prober::next(mask)`: increment `step`, set
`pos = (pos+step) & mask`, and return `step <= mask`. -/
def Prober.next (p : Prober) (mask : Nat) : Prober × Bool :=
  (⟨(p.pos + (p.step + 1)) &&& mask, p.step + 1⟩, decide (p.step + 1 ≤ mask))

/-- The prober state reached after `i` calls to `next mask`, starting from
`pow2_quadratic_prober(s)`. -/
def proberAt (s mask : Nat) : Nat → Prober
  | 0 => Prober.start s
  | i + 1 => ((proberAt s mask i).next mask).1

/-- Triangular numbers: the accumulated displacement of the prober. -/
def tri : Nat → Nat
  | 0 => 0
  | i + 1 => tri i + (i + 1)

/-- `find_info`: the two lookup-accounting counters. -/
structure FindInfo where
  num_hops : Nat
  num_cmps : Nat
deriving DecidableEq, Repr

/-- `find_info::operator+=`. -/
def FindInfo.add (a b : FindInfo) : FindInfo :=
  ⟨a.num_hops + b.num_hops, a.num_cmps + b.num_cmps⟩

/-- `boost_map::group`: the `n` occupied cells of the 15-element array,
plus the overflow byte. -/
structure BGroup where
  elements : List Nat
  overflow : Nat
deriving DecidableEq, Repr

/-- A freshly constructed (empty, zeroed) group. -/
def BGroup.empty : BGroup := ⟨[], 0⟩

/-- `boost_map`: a vector of groups. -/
structure BoostMap where
  groups : List BGroup
deriving DecidableEq, Repr

/-- `boost_map::boost_map(capacity)`. -/
def BoostMap.init (capacity : Nat) : BoostMap :=
  ⟨List.replicate capacity BGroup.empty⟩

/-- Group access `groups[i]` (reads are always in range in the source). -/
def BoostMap.grp (m : BoostMap) (i : Nat) : BGroup :=
  m.groups.getD i BGroup.empty

/-- Group update `groups[i] = g`. -/
def BoostMap.setGrp (m : BoostMap) (i : Nat) (g : BGroup) : BoostMap :=
  ⟨m.groups.set i g⟩

/-- `boost_map::reduced_hash`: the low byte of the hash, with byte values
0 and 1 remapped to 8 and 9. -/
def reducedHash (hash : Nat) : Nat :=
  let h := hash % 256
  if h = 0 then 8 else if h = 1 then 9 else h

/-- Helper for `bitWidth`, recursing on an explicit fuel so that concrete
instances reduce inside the kernel. -/
def bitWidthAux : Nat → Nat → Nat
  | 0, _ => 0
  | fuel + 1, n => if n = 0 then 0 else bitWidthAux fuel (n / 2) + 1

/-- `std::bit_width`: the number of binary digits of `n` (0 for 0).
Proved equal to Mathlib's `Nat.size` below. -/
def bitWidth (n : Nat) : Nat := bitWidthAux n n

/-- `boost_map`'s `shift` member:
`sizeof(std::size_t)*CHAR_BIT - bit_width(groups.size()-1)`. -/
def BoostMap.shift (m : BoostMap) : Nat :=
  64 - bitWidth (m.groups.length - 1)

/-- `boost_map::position_for`: `hash >> shift` on the 64-bit hash value. -/
def BoostMap.positionFor (m : BoostMap) (hash : Nat) : Nat :=
  (hash % 2 ^ 64) >>> m.shift

/-- The comparison count one group contributes in `boost_map::find`:
`count_if(first, it, reduced_hash(x) == reduced_hash(hash))` where
`it` is the first exact match (`first + n` if absent). -/
def BGroup.cmps (g : BGroup) (hash : Nat) : Nat :=
  (g.elements.takeWhile (fun x => !(x == hash))).countP
    (fun x => reducedHash x == reducedHash hash)

/-- The loop of `boost_map::find`, fueled.  One iteration: add this group's
comparison count; on an exact match add one more and return found; if the
group's overflow bit for `hash % 8` is unset return not-found; otherwise
bump `num_hops` and continue with the next probe position. -/
def BoostMap.findLoop (m : BoostMap) (hash : Nat) (pb : Prober)
    (info : FindInfo) : Nat → Option (FindInfo × Bool)
  | 0 => none
  | fuel + 1 =>
    let g := m.grp pb.pos
    let c := info.num_cmps + g.cmps hash
    if g.elements.contains hash then
      some (⟨info.num_hops, c + 1⟩, true)
    else if g.overflow &&& (1 <<< (hash % 8)) = 0 then
      some (⟨info.num_hops, c⟩, false)
    else
      m.findLoop hash ((pb.next (m.groups.length - 1)).1)
        ⟨info.num_hops + 1, c⟩ fuel

/-- `boost_map::find`. -/
def BoostMap.find (m : BoostMap) (hash : Nat) (fuel : Nat) :
    Option (FindInfo × Bool) :=
  m.findLoop hash (Prober.start (m.positionFor hash)) ⟨0, 0⟩ fuel

/-- The placement loop of `boost_map::insert`, fueled.  One iteration: if the
group has room append the hash there; otherwise set the group's overflow bit
for `hash % 8` and continue with the next probe position. -/
def BoostMap.insertLoop (m : BoostMap) (hash : Nat) (pb : Prober) :
    Nat → Option BoostMap
  | 0 => none
  | fuel + 1 =>
    let g := m.grp pb.pos
    if g.elements.length < 15 then
      some (m.setGrp pb.pos ⟨g.elements ++ [hash], g.overflow⟩)
    else
      (m.setGrp pb.pos ⟨g.elements, g.overflow ||| (1 <<< (hash % 8))⟩).insertLoop
        hash ((pb.next (m.groups.length - 1)).1) fuel

/-- `boost_map::insert`: no-op on a present key, otherwise run the
placement loop from the home group.  The Bool is the source's return
value (whether an insertion happened). -/
def BoostMap.insert (m : BoostMap) (hash : Nat) (fuel : Nat) :
    Option (BoostMap × Bool) :=
  match m.find hash fuel with
  | none => none
  | some (_, true) => some (m, false)
  | some (_, false) =>
    match m.insertLoop hash (Prober.start (m.positionFor hash)) fuel with
    | none => none
    | some m2 => some (m2, true)

/-- The number of groups with `n == N` (15). -/
def BoostMap.numFull (m : BoostMap) : Nat :=
  m.groups.countP (fun g => g.elements.length == 15)

/-- `boost_map::pr_group_full`: `num_full / groups.size()` (the source
computes this in `float`; the embedding uses exact rationals). -/
def BoostMap.prGroupFull (m : BoostMap) : ℚ :=
  (m.numFull : ℚ) / (m.groups.length : ℚ)

/-- `abseil_map`: a flat vector of optional slots (`capacity * 16` of them). -/
structure AbseilMap where
  elements : List (Option Nat)
deriving DecidableEq, Repr

/-- `abseil_map::abseil_map(capacity)`. -/
def AbseilMap.init (capacity : Nat) : AbseilMap :=
  ⟨List.replicate (capacity * 16) none⟩

/-- `abseil_map::element_at`: slot access through the power-of-two wrap
`pos & (elements.size()-1)`. -/
def AbseilMap.elementAt (m : AbseilMap) (pos : Nat) : Option Nat :=
  m.elements.getD (pos &&& (m.elements.length - 1)) none

/-- Slot write `element_at(pos) = x`. -/
def AbseilMap.setAt (m : AbseilMap) (pos : Nat) (x : Option Nat) : AbseilMap :=
  ⟨m.elements.set (pos &&& (m.elements.length - 1)) x⟩

/-- The scanning loop of the private `abseil_map::find(first,last,x)`,
recursing on `last - first`. -/
def AbseilMap.scanFrom (m : AbseilMap) (x : Option Nat) (first : Nat) :
    Nat → Nat
  | 0 => first
  | n + 1 =>
    if m.elementAt first = x then first else m.scanFrom x (first + 1) n

/-- Private `abseil_map::find(first,last,x)`: index of the first slot in
`[first, last)` equal to `x`, or `last`. -/
def AbseilMap.scanFind (m : AbseilMap) (first last : Nat) (x : Option Nat) :
    Nat :=
  m.scanFrom x first (last - first)

/-- The loop of `abseil_map::num_cmps(first,last,hash)`. -/
def AbseilMap.cmpsFrom (m : AbseilMap) (hash first : Nat) : Nat → Nat
  | 0 => 0
  | n + 1 =>
    (match m.elementAt first with
     | some x => if x &&& 127 = hash &&& 127 then 1 else 0
     | none => 0) + m.cmpsFrom hash (first + 1) n

/-- `abseil_map::num_cmps(first,last,hash)`: the number of occupied slots in
`[first, last)` whose low 7 bits match the hash's. -/
def AbseilMap.numCmps (m : AbseilMap) (first last hash : Nat) : Nat :=
  m.cmpsFrom hash first (last - first)

/-- `abseil_map::position_for`: `(hash >> 7) & (elements.size()-1)` on the
64-bit hash value. -/
def AbseilMap.positionFor (m : AbseilMap) (hash : Nat) : Nat :=
  ((hash % 2 ^ 64) >>> 7) &&& (m.elements.length - 1)

/-- The loop of `abseil_map::find`, fueled.  One iteration over the window
`[pos0, pos0+16)`: add `num_cmps(pos0, pos1, hash)` where `pos1` is the
first exact match (or the window end); on a match add one more comparison
and return found; if the window holds an empty slot return not-found;
otherwise bump `num_hops` and continue with the next probe position. -/
def AbseilMap.findLoop (m : AbseilMap) (hash off : Nat) (pb : Prober)
    (info : FindInfo) : Nat → Option (FindInfo × Bool)
  | 0 => none
  | fuel + 1 =>
    let pos0 := pb.pos * 16 + off
    let pos1 := m.scanFind pos0 (pos0 + 16) (some hash)
    let c := info.num_cmps + m.numCmps pos0 pos1 hash
    if pos1 ≠ pos0 + 16 then
      some (⟨info.num_hops, c + 1⟩, true)
    else if m.scanFind pos0 (pos0 + 16) none ≠ pos0 + 16 then
      some (⟨info.num_hops, c⟩, false)
    else
      m.findLoop hash off ((pb.next (m.elements.length / 16 - 1)).1)
        ⟨info.num_hops + 1, c⟩ fuel

/-- `abseil_map::find`. -/
def AbseilMap.find (m : AbseilMap) (hash : Nat) (fuel : Nat) :
    Option (FindInfo × Bool) :=
  let pos := m.positionFor hash
  m.findLoop hash (pos % 16) (Prober.start (pos / 16)) ⟨0, 0⟩ fuel

/-- The placement loop of `abseil_map::insert`, fueled: place the hash at
the first empty slot of the probed window, else continue probing. -/
def AbseilMap.insertLoop (m : AbseilMap) (hash off : Nat) (pb : Prober) :
    Nat → Option AbseilMap
  | 0 => none
  | fuel + 1 =>
    let pos0 := pb.pos * 16 + off
    let pos1 := m.scanFind pos0 (pos0 + 16) none
    if pos1 ≠ pos0 + 16 then
      some (m.setAt pos1 (some hash))
    else
      m.insertLoop hash off ((pb.next (m.elements.length / 16 - 1)).1) fuel

/-- `abseil_map::insert`. -/
def AbseilMap.insert (m : AbseilMap) (hash : Nat) (fuel : Nat) :
    Option (AbseilMap × Bool) :=
  match m.find hash fuel with
  | none => none
  | some (_, true) => some (m, false)
  | some (_, false) =>
    let pos := m.positionFor hash
    match m.insertLoop hash (pos % 16) (Prober.start (pos / 16)) fuel with
    | none => none
    | some m2 => some (m2, true)

/-- Whether the 16-slot window starting at `pos` holds no empty slot,
as tested by `pr_group_full`'s `find(pos, pos+N, nullopt) == pos+N`. -/
def AbseilMap.windowFull (m : AbseilMap) (pos : Nat) : Bool :=
  m.scanFind pos (pos + 16) none == pos + 16

/-- `abseil_map::pr_group_full`'s numerator: the loop over every slot
position `pos < elements.size()` counting full 16-wide windows. -/
def AbseilMap.numFull (m : AbseilMap) : Nat :=
  (List.range m.elements.length).countP (fun pos => m.windowFull pos)

/-- `abseil_map::pr_group_full`: `num_full / elements.size()` (exact
rationals in place of the source's `float`). -/
def AbseilMap.prGroupFull (m : AbseilMap) : ℚ :=
  (m.numFull : ℚ) / (m.elements.length : ℚ)

/-- The slot positions probed inside one 16-wide window of `abseil_map`,
as the list of slot contents `element_at(pos0 + i)` for `i = 0..15`. -/
def AbseilMap.windowSlots (m : AbseilMap) (pos0 : Nat) : List (Option Nat) :=
  (List.range 16).map (fun i => m.elementAt (pos0 + i))

/-- The low-7-bit comparison `x && (*x & 0x7f) == (hash & 0x7f)` on a slot. -/
def low7cmp (hash : Nat) : Option Nat → Bool
  | some x => x &&& 127 == hash &&& 127
  | none => false

/-- Index of the first exact match inside a window (16 when absent). -/
def AbseilMap.matchIdx (m : AbseilMap) (hash pos0 : Nat) : Nat :=
  (m.windowSlots pos0).findIdx (fun o => o == some hash)

/-- The comparison count `abseil_map::find` actually accumulates for one
window: occupied slots with matching low 7 bits among the slots strictly
before the first exact match (the whole window when there is no match). -/
def AbseilMap.windowCmps (m : AbseilMap) (hash pos0 : Nat) : Nat :=
  ((m.windowSlots pos0).take (m.matchIdx hash pos0)).countP (low7cmp hash)

/-- Modelled from the spec (claim C3's words): comparisons for one window
counted only before the position where a match or the first empty slot is
found. -/
def AbseilMap.claimWindowCmps (m : AbseilMap) (hash pos0 : Nat) : Nat :=
  ((m.windowSlots pos0).takeWhile
      (fun o => !(o == some hash) && !(o == none))).countP (low7cmp hash)

/-- Modelled from the spec (claim C3's words): the lookup loop as claim C3
states it, with one `num_hops` increment per window visited and per-window
comparisons counted only up to the first match-or-empty position. -/
def AbseilMap.claimFindLoop (m : AbseilMap) (hash off : Nat) (pb : Prober)
    (info : FindInfo) : Nat → Option (FindInfo × Bool)
  | 0 => none
  | fuel + 1 =>
    let pos0 := pb.pos * 16 + off
    let c := info.num_cmps + m.claimWindowCmps hash pos0
    let h := info.num_hops + 1
    if (m.windowSlots pos0).contains (some hash) then
      some (⟨h, c + 1⟩, true)
    else if (m.windowSlots pos0).contains none then
      some (⟨h, c⟩, false)
    else
      m.claimFindLoop hash off ((pb.next (m.elements.length / 16 - 1)).1)
        ⟨h, c⟩ fuel

/-- Modelled from the spec (claim C3's words): the full lookup as the claim
describes it. -/
def AbseilMap.claimFind (m : AbseilMap) (hash : Nat) (fuel : Nat) :
    Option (FindInfo × Bool) :=
  let pos := m.positionFor hash
  m.claimFindLoop hash (pos % 16) (Prober.start (pos / 16)) ⟨0, 0⟩ fuel

/-- Modelled from the spec (claim C2's words): the fraction of the
`capacity` aligned logical windows `g*16 .. g*16+15` that contain no empty
slot. -/
def AbseilMap.alignedFullFraction (m : AbseilMap) : ℚ :=
  (((List.range (m.elements.length / 16)).countP
      (fun g => (List.range 16).all
        (fun i => !(m.elements.getD (g * 16 + i) none == none))) : Nat) : ℚ) /
    ((m.elements.length / 16 : Nat) : ℚ)

/-- The comparison count `boost_map::find` actually accumulates for one
group: occupied keys with matching reduced hash among the keys strictly
before the first exact match (all occupied keys when there is no match). -/
def BGroup.groupCmps (g : BGroup) (hash : Nat) : Nat :=
  (g.elements.take (g.elements.findIdx (fun x => x == hash))).countP
    (fun x => reducedHash x == reducedHash hash)

/-- Modelled from the spec (claim C4's words): comparisons for one group as
the number of ALL occupied keys with matching reduced hash, plus one for a
confirming exact match. -/
def BGroup.claimGroupCmps (g : BGroup) (hash : Nat) : Nat :=
  g.elements.countP (fun x => reducedHash x == reducedHash hash) +
    (if g.elements.contains hash then 1 else 0)

/-- C2/C3/C4 counterexample states (all reachable by insertions). -/
def abseilCex2 : AbseilMap :=
  ⟨none :: none :: (List.range 30).map (fun i => some (i + 2))⟩

def abseilCex3 : AbseilMap :=
  ⟨none :: some 129 :: List.replicate 14 none⟩

def boostCex4 : BoostMap :=
  ⟨[⟨[5, 261], 0⟩, BGroup.empty]⟩

/-- The group index probed by `boost_map` at step `i` of the probe
sequence for `hash`. -/
def BoostMap.probeAt (m : BoostMap) (hash i : Nat) : Nat :=
  (proberAt (m.positionFor hash) (m.groups.length - 1) i).pos

/-- Claim C5, soundness half: whenever `find` returns not-found, the group
it stopped at has no exact match and an unset overflow bit for
`hash % 8`, and every earlier probed group had no match and a set bit. -/
def boostFindStopSound (m : BoostMap) (hash fuel : Nat) : Prop :=
  ∀ info, m.find hash fuel = some (info, false) →
    (∀ i < info.num_hops,
        ¬ (m.grp (m.probeAt hash i)).elements.contains hash ∧
        (m.grp (m.probeAt hash i)).overflow &&& (1 <<< (hash % 8)) ≠ 0) ∧
    ¬ (m.grp (m.probeAt hash info.num_hops)).elements.contains hash ∧
    (m.grp (m.probeAt hash info.num_hops)).overflow &&& (1 <<< (hash % 8)) = 0

/-- Claim C5, completeness half: if the first `j` probed groups have no
match and set bits, and group `j` has no match and an unset bit, `find`
returns not-found there with exactly `j` hops. -/
def boostFindStopComplete (m : BoostMap) (hash fuel : Nat) : Prop :=
  ∀ j, j < fuel →
    (∀ i < j, ¬ (m.grp (m.probeAt hash i)).elements.contains hash ∧
        (m.grp (m.probeAt hash i)).overflow &&& (1 <<< (hash % 8)) ≠ 0) →
    ¬ (m.grp (m.probeAt hash j)).elements.contains hash →
    (m.grp (m.probeAt hash j)).overflow &&& (1 <<< (hash % 8)) = 0 →
    ∃ c, m.find hash fuel = some (⟨j, c⟩, false)

/-- Claim C5, insertion half: a terminating placement walk appends the key
to the first probed group with room and sets the overflow bit for
`hash % 8` on every full group walked past. -/
def boostInsertMarks (m : BoostMap) (hash fuel : Nat) : Prop :=
  ∀ m', m.insertLoop hash (Prober.start (m.positionFor hash)) fuel = some m' →
    ∃ p, p < fuel ∧
      (∀ i < p, 15 ≤ (m.grp (m.probeAt hash i)).elements.length ∧
          (m'.grp (m.probeAt hash i)).overflow &&& (1 <<< (hash % 8)) ≠ 0) ∧
      (m.grp (m.probeAt hash p)).elements.length < 15 ∧
      (m'.grp (m.probeAt hash p)).elements =
        (m.grp (m.probeAt hash p)).elements ++ [hash]

/-- Claim C7 for `boost_map`: a terminating insertion is followed by a
successful lookup with at least one comparison. -/
def boostInsertFindRoundtrip (m : BoostMap) (hash fuel : Nat) : Prop :=
  ∀ m' b, m.insert hash fuel = some (m', b) →
    ∃ info, m'.find hash fuel = some (info, true) ∧
      0 ≤ info.num_hops ∧ 1 ≤ info.num_cmps

/-- Claim C7 for `abseil_map`. -/
def abseilInsertFindRoundtrip (m : AbseilMap) (hash fuel : Nat) : Prop :=
  ∀ m' b, m.insert hash fuel = some (m', b) →
    ∃ info, m'.find hash fuel = some (info, true) ∧
      0 ≤ info.num_hops ∧ 1 ≤ info.num_cmps

/-- Claim C8 for `boost_map`: one insertion removes no key, shrinks no
group, clears no overflow bit, and cannot decrease `pr_group_full`. -/
def boostInsertMonotone (m : BoostMap) (hash fuel : Nat) : Prop :=
  ∀ m' b, m.insert hash fuel = some (m', b) →
    (∀ g, ∀ x ∈ (m.grp g).elements, x ∈ (m'.grp g).elements) ∧
    (∀ g, (m.grp g).elements.length ≤ (m'.grp g).elements.length) ∧
    (∀ g j, (m.grp g).overflow.testBit j = true →
        (m'.grp g).overflow.testBit j = true) ∧
    m.prGroupFull ≤ m'.prGroupFull

/-- Claim C8 for `abseil_map`: one insertion never re-empties or overwrites
an occupied slot, and cannot decrease `pr_group_full`. -/
def abseilInsertMonotone (m : AbseilMap) (hash fuel : Nat) : Prop :=
  ∀ m' b, m.insert hash fuel = some (m', b) →
    (∀ p x, m.elements.getD p none = some x →
        m'.elements.getD p none = some x) ∧
    m.prGroupFull ≤ m'.prGroupFull

/-- A sequence of insertions (each fueled), as the driver performs them. -/
def BoostMap.insertSeq (m : BoostMap) (ks : List Nat) (fuel : Nat) :
    Option BoostMap :=
  ks.foldl (fun acc kk => acc.bind (fun mm => (mm.insert kk fuel).map Prod.fst))
    (some m)

def AbseilMap.insertSeq (m : AbseilMap) (ks : List Nat) (fuel : Nat) :
    Option AbseilMap :=
  ks.foldl (fun acc kk => acc.bind (fun mm => (mm.insert kk fuel).map Prod.fst))
    (some m)

/-- Claim C8, sequences: group saturation is non-decreasing over any
terminating sequence of insertions. -/
def boostSeqPrMonotone (m : BoostMap) (fuel : Nat) : Prop :=
  ∀ ks m', m.insertSeq ks fuel = some m' → m.prGroupFull ≤ m'.prGroupFull

def abseilSeqPrMonotone (m : AbseilMap) (fuel : Nat) : Prop :=
  ∀ ks m', m.insertSeq ks fuel = some m' → m.prGroupFull ≤ m'.prGroupFull

/-- Claim C10, first half: with a non-full group somewhere, the placement
walk terminates within one probe cycle and appends the key to the first
probed group with room. -/
def boostInsertTerminates (m : BoostMap) (hash k : Nat) : Prop :=
  (∃ g, g < m.groups.length ∧ (m.grp g).elements.length < 15) →
  ∃ m' p, m.insertLoop hash (Prober.start (m.positionFor hash)) (2 ^ k) = some m' ∧
    p < 2 ^ k ∧
    (∀ i < p, 15 ≤ (m.grp (m.probeAt hash i)).elements.length) ∧
    (m.grp (m.probeAt hash p)).elements.length < 15 ∧
    (m'.grp (m.probeAt hash p)).elements =
      (m.grp (m.probeAt hash p)).elements ++ [hash]

/-- Claim C10, second half: with every group full, the placement walk
returns for no amount of fuel (the loop never consults the prober's
cycle-completion signal, so there is no failure path). -/
def boostInsertFullDiverges (m : BoostMap) (hash : Nat) : Prop :=
  (∀ g, g < m.groups.length → 15 ≤ (m.grp g).elements.length) →
  ∀ fuel pb, pb.pos < m.groups.length → m.insertLoop hash pb fuel = none

/-- One output row of `stats_row`: the load factor, the group-saturation
probability and the four reported lookup means. -/
structure StatsRow where
  lf : ℚ
  prFull : ℚ
  sHops : ℚ
  sCmps : ℚ
  uHops : ℚ
  uCmps : ℚ
deriving DecidableEq, Repr

/-- The guarded mean `!size ? 0 : float(total)/size` of `stats_row`. -/
def meanOrZero (total count : Nat) : ℚ :=
  if count = 0 then 0 else (total : ℚ) / (count : ℚ)

/-- `std::size_t(capacity*lf*N)`: the driver's target element count. -/
def targetCount (capacity : Nat) (lf : ℚ) (n : Nat) : Nat :=
  Int.toNat ⌊(capacity : ℚ) * lf * (n : ℚ)⌋

/-- `stats_row`'s first loop (boost): draw and insert until `target`
successful insertions. -/
def boostFillLoop (draw : Nat → Nat) (findFuel target : Nat) :
    BoostMap → Nat → Nat → Nat → Option BoostMap
  | m, n, _, 0 => if n = target then some m else none
  | m, n, idx, fuel + 1 =>
    if n = target then some m
    else
      match m.insert (draw idx) findFuel with
      | none => none
      | some (m2, true) => boostFillLoop draw findFuel target m2 (n + 1) (idx + 1) fuel
      | some (m2, false) => boostFillLoop draw findFuel target m2 n (idx + 1) fuel

/-- `stats_row`'s second loop (boost): replay the same `target` draws and
accumulate lookup accounting. -/
def boostSuccLoop (draw : Nat → Nat) (findFuel : Nat) (m : BoostMap) :
    Nat → Nat → FindInfo → Option FindInfo
  | _, 0, info => some info
  | idx, cnt + 1, info =>
    match m.find (draw idx) findFuel with
    | none => none
    | some (i, _) => boostSuccLoop draw findFuel m (idx + 1) cnt (info.add i)

/-- `stats_row`'s third loop (boost): draw from the second stream, keep
only absent draws, until `target` of them. -/
def boostUnsuccLoop (draw2 : Nat → Nat) (findFuel target : Nat) (m : BoostMap) :
    Nat → Nat → FindInfo → Nat → Option FindInfo
  | n, _, info, 0 => if n = target then some info else none
  | n, idx, info, fuel + 1 =>
    if n = target then some info
    else
      match m.find (draw2 idx) findFuel with
      | none => none
      | some (i, b) =>
        if b then boostUnsuccLoop draw2 findFuel target m n (idx + 1) info fuel
        else boostUnsuccLoop draw2 findFuel target m (n + 1) (idx + 1) (info.add i) fuel

/-- `stats_row<boost_map>`: the numeric content of one report row.  The
pseudo-random source is abstracted as the two replayable draw streams the
spec's external-interface section describes. -/
def boostStatsRow (draw draw2 : Nat → Nat) (capacity : Nat) (lf : ℚ)
    (findFuel fillFuel unsFuel : Nat) : Option StatsRow :=
  let size := targetCount capacity lf 15
  match boostFillLoop draw findFuel size (BoostMap.init capacity) 0 0 fillFuel with
  | none => none
  | some m =>
    match boostSuccLoop draw findFuel m 0 size ⟨0, 0⟩ with
    | none => none
    | some si =>
      match boostUnsuccLoop draw2 findFuel size m 0 0 ⟨0, 0⟩ unsFuel with
      | none => none
      | some ui =>
        some ⟨lf, m.prGroupFull,
          meanOrZero si.num_hops size, meanOrZero si.num_cmps size,
          meanOrZero ui.num_hops size, meanOrZero ui.num_cmps size⟩

def abseilFillLoop (draw : Nat → Nat) (findFuel target : Nat) :
    AbseilMap → Nat → Nat → Nat → Option AbseilMap
  | m, n, _, 0 => if n = target then some m else none
  | m, n, idx, fuel + 1 =>
    if n = target then some m
    else
      match m.insert (draw idx) findFuel with
      | none => none
      | some (m2, true) => abseilFillLoop draw findFuel target m2 (n + 1) (idx + 1) fuel
      | some (m2, false) => abseilFillLoop draw findFuel target m2 n (idx + 1) fuel

def abseilSuccLoop (draw : Nat → Nat) (findFuel : Nat) (m : AbseilMap) :
    Nat → Nat → FindInfo → Option FindInfo
  | _, 0, info => some info
  | idx, cnt + 1, info =>
    match m.find (draw idx) findFuel with
    | none => none
    | some (i, _) => abseilSuccLoop draw findFuel m (idx + 1) cnt (info.add i)

def abseilUnsuccLoop (draw2 : Nat → Nat) (findFuel target : Nat) (m : AbseilMap) :
    Nat → Nat → FindInfo → Nat → Option FindInfo
  | n, _, info, 0 => if n = target then some info else none
  | n, idx, info, fuel + 1 =>
    if n = target then some info
    else
      match m.find (draw2 idx) findFuel with
      | none => none
      | some (i, b) =>
        if b then abseilUnsuccLoop draw2 findFuel target m n (idx + 1) info fuel
        else abseilUnsuccLoop draw2 findFuel target m (n + 1) (idx + 1) (info.add i) fuel

/-- `stats_row<abseil_map>`. -/
def abseilStatsRow (draw draw2 : Nat → Nat) (capacity : Nat) (lf : ℚ)
    (findFuel fillFuel unsFuel : Nat) : Option StatsRow :=
  let size := targetCount capacity lf 16
  match abseilFillLoop draw findFuel size (AbseilMap.init capacity) 0 0 fillFuel with
  | none => none
  | some m =>
    match abseilSuccLoop draw findFuel m 0 size ⟨0, 0⟩ with
    | none => none
    | some si =>
      match abseilUnsuccLoop draw2 findFuel size m 0 0 ⟨0, 0⟩ unsFuel with
      | none => none
      | some ui =>
        some ⟨lf, m.prGroupFull,
          meanOrZero si.num_hops size, meanOrZero si.num_cmps size,
          meanOrZero ui.num_hops size, meanOrZero ui.num_cmps size⟩

/-! ### Lemmas and claim theorems -/

lemma tri_add (i d : Nat) : tri (i + d) = tri i + d * i + tri d := by
  induction d with
  | zero => simp [tri]
  | succ d ih =>
      have h : i + (d + 1) = (i + d) + 1 := by omega
      rw [h, tri, ih, tri]
      ring

lemma two_mul_tri (n : Nat) : 2 * tri n = n * (n + 1) := by
  induction n with
  | zero => simp [tri]
  | succ n ih => rw [tri, Nat.mul_add, ih]; ring

lemma proberAt_step (s mask i : Nat) : (proberAt s mask i).step = i := by
  induction i with
  | zero => rfl
  | succ i ih => simp [proberAt, Prober.next, ih]

lemma proberAt_succ_pos (s mask i : Nat) :
    (proberAt s mask (i + 1)).pos =
      ((proberAt s mask i).pos + (i + 1)) &&& mask := by
  simp [proberAt, Prober.next, proberAt_step]

/-- Closed form of the probe sequence over a power-of-two table. -/
lemma proberAt_pos_closed (k s : Nat) (hs : s < 2 ^ k) (i : Nat) :
    (proberAt s (2 ^ k - 1) i).pos = (s + tri i) % 2 ^ k := by
  induction i with
  | zero =>
      simp [proberAt, Prober.start, tri, Nat.mod_eq_of_lt hs]
  | succ i ih =>
      rw [proberAt_succ_pos, ih, Nat.and_pow_two_sub_one_eq_mod,
        Nat.mod_add_mod]
      have h : s + tri i + (i + 1) = s + tri (i + 1) := by
        rw [tri]; ring
      rw [h]

lemma tri_mod_two_pow_inj_aux (k : Nat) {i d : Nat} (hd : 0 < d)
    (hj : i + d < 2 ^ k) (h : tri i % 2 ^ k = tri (i + d) % 2 ^ k) : False := by
  have h1 : 2 ^ k ∣ d * i + tri d := by
    have hEq : Nat.ModEq (2 ^ k) (tri i) (tri i + (d * i + tri d)) := by
      unfold Nat.ModEq
      rw [h, tri_add]
      ring_nf
    have := (Nat.modEq_iff_dvd' (Nat.le_add_right _ _)).mp hEq
    simpa using this
  have h2 : 2 ^ (k + 1) ∣ d * (2 * i + d + 1) := by
    have hmul : 2 * (d * i + tri d) = d * (2 * i + d + 1) := by
      have ht := two_mul_tri d
      ring_nf
      ring_nf at ht
      omega
    have := Nat.mul_dvd_mul_left 2 h1
    rw [hmul] at this
    simpa [Nat.pow_succ, Nat.mul_comm] using this
  have hlt : 2 ^ (k + 1) = 2 * 2 ^ k := by ring
  rcases Nat.even_or_odd d with he | ho
  · have hd2 : d % 2 = 0 := Nat.even_iff.mp he
    have hodd : ¬ 2 ∣ (2 * i + d + 1) := by omega
    have hcop : Nat.Coprime (2 ^ (k + 1)) (2 * i + d + 1) :=
      Nat.Coprime.pow_left _
        ((Nat.Prime.coprime_iff_not_dvd Nat.prime_two).mpr hodd)
    have hdd : 2 ^ (k + 1) ∣ d := hcop.dvd_of_dvd_mul_right h2
    have := Nat.le_of_dvd hd hdd
    omega
  · have hd2 : d % 2 = 1 := Nat.odd_iff.mp ho
    have hodd : ¬ 2 ∣ d := by omega
    have hcop : Nat.Coprime (2 ^ (k + 1)) d :=
      Nat.Coprime.pow_left _
        ((Nat.Prime.coprime_iff_not_dvd Nat.prime_two).mpr hodd)
    have hdd : 2 ^ (k + 1) ∣ (2 * i + d + 1) := hcop.dvd_of_dvd_mul_left h2
    have := Nat.le_of_dvd (by omega) hdd
    omega

/-- Triangular numbers are pairwise distinct modulo `2^k` below `2^k`:
the core of the quadratic-probing permutation guarantee. -/
lemma tri_mod_two_pow_inj (k : Nat) {i j : Nat} (hi : i < 2 ^ k) (hj : j < 2 ^ k)
    (h : tri i % 2 ^ k = tri j % 2 ^ k) : i = j := by
  rcases Nat.lt_trichotomy i j with h' | h' | h'
  · exfalso
    obtain ⟨d, rfl⟩ : ∃ d, j = i + d := ⟨j - i, by omega⟩
    exact tri_mod_two_pow_inj_aux k (by omega) hj h
  · exact h'
  · exfalso
    obtain ⟨d, rfl⟩ : ∃ d, i = j + d := ⟨i - j, by omega⟩
    exact tri_mod_two_pow_inj_aux k (by omega) hi h.symm

lemma probe_pos_lt (k s : Nat) (hs : s < 2 ^ k) (i : Nat) :
    (proberAt s (2 ^ k - 1) i).pos < 2 ^ k := by
  rw [proberAt_pos_closed k s hs]
  exact Nat.mod_lt _ (by positivity)

lemma probe_pos_inj (k s : Nat) (hs : s < 2 ^ k) {i j : Nat}
    (hi : i < 2 ^ k) (hj : j < 2 ^ k)
    (h : (proberAt s (2 ^ k - 1) i).pos = (proberAt s (2 ^ k - 1) j).pos) :
    i = j := by
  rw [proberAt_pos_closed k s hs, proberAt_pos_closed k s hs] at h
  exact tri_mod_two_pow_inj k hi hj (Nat.ModEq.add_left_cancel' s h)

lemma probe_pos_surj (k s : Nat) (hs : s < 2 ^ k) {v : Nat} (hv : v < 2 ^ k) :
    ∃ i, i < 2 ^ k ∧ (proberAt s (2 ^ k - 1) i).pos = v := by
  let f : Fin (2 ^ k) → Fin (2 ^ k) :=
    fun i => ⟨(proberAt s (2 ^ k - 1) i.1).pos, probe_pos_lt k s hs i.1⟩
  have hinj : Function.Injective f := by
    intro a b hab
    have := probe_pos_inj k s hs a.2 b.2 (congrArg Fin.val hab)
    exact Fin.ext this
  have hsurj : Function.Surjective f := Finite.injective_iff_surjective.mp hinj
  obtain ⟨i, hi⟩ := hsurj ⟨v, hv⟩
  exact ⟨i.1, i.2, congrArg Fin.val hi⟩


/-- C1: for every power-of-two table size `2^k` (mask `2^k - 1`) and every
starting slot index, the probe positions after 0, 1, ..., mask advances are
pairwise distinct and cover every slot index `0..mask`: the sequence is a
permutation of all slot indices, with no repeat before `mask+1` steps. -/
theorem probe_sequence_permutation (k s : Nat) (hs : s ≤ 2 ^ k - 1) :
    (∀ i j, i ≤ 2 ^ k - 1 → j ≤ 2 ^ k - 1 →
        (proberAt s (2 ^ k - 1) i).pos = (proberAt s (2 ^ k - 1) j).pos →
        i = j) ∧
    (∀ v, v ≤ 2 ^ k - 1 →
        ∃ i, i ≤ 2 ^ k - 1 ∧ (proberAt s (2 ^ k - 1) i).pos = v) := by
  have hpow : 1 ≤ 2 ^ k := Nat.one_le_two_pow
  have hs' : s < 2 ^ k := by omega
  constructor
  · intro i j hi hj h
    exact probe_pos_inj k s hs' (by omega) (by omega) h
  · intro v hv
    obtain ⟨i, hi, h⟩ := probe_pos_surj k s hs' (v := v) (by omega)
    exact ⟨i, by omega, h⟩

theorem probe_sequence_permutation_witness :
    1 ≤ 2 ^ 2 - 1 ∧
    ((∀ i j, i ≤ 2 ^ 2 - 1 → j ≤ 2 ^ 2 - 1 →
        (proberAt 1 (2 ^ 2 - 1) i).pos = (proberAt 1 (2 ^ 2 - 1) j).pos →
        i = j) ∧
     (∀ v, v ≤ 2 ^ 2 - 1 →
        ∃ i, i ≤ 2 ^ 2 - 1 ∧ (proberAt 1 (2 ^ 2 - 1) i).pos = v)) :=
  ⟨by decide, probe_sequence_permutation 2 1 (by decide)⟩

/-- C6 counterexample: advancing the fresh prober (pos 0, step 0) with mask
1 gives a new step count of 1, which does not exceed the mask, yet `next`
returns `true` — refuting "it returns true exactly when the step count has
exceeded mask". -/
theorem prober_next_return_counterexample :
    (Prober.next ⟨0, 0⟩ 1).2 = true ∧
    ¬ ((1 : Nat) < (Prober.next ⟨0, 0⟩ 1).1.step) := by
  constructor
  · rfl
  · decide

/-- C6 amended: `next` increments the internal step counter, sets the
position to `(previous + step) & mask`, and returns true exactly while the
step count has NOT exceeded the mask; equivalently it returns false exactly
when the full cycle over all `mask+1` slots has been completed (step count
exceeded mask). -/
theorem prober_next_spec (pos step mask : Nat) :
    Prober.next ⟨pos, step⟩ mask =
      (⟨(pos + (step + 1)) &&& mask, step + 1⟩, decide (step + 1 ≤ mask)) ∧
    ((Prober.next ⟨pos, step⟩ mask).2 = false ↔
      mask < (Prober.next ⟨pos, step⟩ mask).1.step) := by
  refine ⟨rfl, ?_⟩
  simp [Prober.next]

lemma scanFrom_spec (m : AbseilMap) (x : Option Nat) :
    ∀ n first, ∃ j, j ≤ n ∧ m.scanFrom x first n = first + j ∧
      (∀ i < j, m.elementAt (first + i) ≠ x) ∧
      (j < n → m.elementAt (first + j) = x) := by
  intro n
  induction n with
  | zero =>
      intro first
      exact ⟨0, Nat.le_refl 0, by simp [AbseilMap.scanFrom], by omega, by omega⟩
  | succ n ih =>
      intro first
      by_cases h : m.elementAt first = x
      · refine ⟨0, by omega, by simp [AbseilMap.scanFrom, h], by omega, ?_⟩
        intro _
        simpa using h
      · obtain ⟨j, hj1, hj2, hj3, hj4⟩ := ih (first + 1)
        refine ⟨j + 1, by omega, ?_, ?_, ?_⟩
        · show m.scanFrom x first (n + 1) = first + (j + 1)
          rw [AbseilMap.scanFrom, if_neg h, hj2]
          omega
        · intro i hi
          match i with
          | 0 => simpa using h
          | i + 1 =>
              have := hj3 i (by omega)
              have harr : first + 1 + i = first + (i + 1) := by omega
              rwa [harr] at this
        · intro hlt
          have := hj4 (by omega)
          have harr : first + 1 + j = first + (j + 1) := by omega
          rwa [harr] at this

lemma scanFrom_eq_end_iff (m : AbseilMap) (x : Option Nat) (n first : Nat) :
    m.scanFrom x first n = first + n ↔ ∀ i < n, m.elementAt (first + i) ≠ x := by
  obtain ⟨j, hj1, hj2, hj3, hj4⟩ := scanFrom_spec m x n first
  constructor
  · intro h
    have : j = n := by omega
    subst this
    exact hj3
  · intro h
    rcases Nat.eq_or_lt_of_le hj1 with h' | h'
    · omega
    · exact absurd (hj4 h') (h j h')

lemma scanFrom_le_end (m : AbseilMap) (x : Option Nat) (n first : Nat) :
    first ≤ m.scanFrom x first n ∧ m.scanFrom x first n ≤ first + n := by
  obtain ⟨j, hj1, hj2, _, _⟩ := scanFrom_spec m x n first
  omega

lemma windowFull_iff (m : AbseilMap) (pos : Nat) :
    m.windowFull pos = true ↔ ∀ i < 16, m.elementAt (pos + i) ≠ none := by
  unfold AbseilMap.windowFull AbseilMap.scanFind
  rw [beq_iff_eq]
  have h16 : pos + 16 - pos = 16 := by omega
  rw [h16]
  exact scanFrom_eq_end_iff m none 16 pos

/-- C2 counterexample: a 2-group (32-slot) table whose slots 0 and 1 are
empty and slots 2..31 occupied.  The aligned-window fraction of the claim
is 1/2, but `pr_group_full` computes 15/32: the code counts full 16-wide
windows at every one of the `capacity*16` slot positions and divides by
`capacity*16`, not by `capacity`. -/
theorem abseil_pr_group_full_counterexample :
    abseilCex2.prGroupFull ≠ abseilCex2.alignedFullFraction := by
  have h1 : abseilCex2.numFull = 15 := by decide
  have h2 : abseilCex2.elements.length = 32 := by decide
  have h3 : (List.range (32 / 16)).countP
      (fun g => (List.range 16).all
        (fun i => !(abseilCex2.elements.getD (g * 16 + i) none == none))) = 1 := by
    decide
  unfold AbseilMap.prGroupFull AbseilMap.alignedFullFraction
  rw [h1, h2, h3]
  norm_num

/-- C2 amended: `pr_group_full` returns the fraction, over all
`capacity*16` slot positions, of the 16-wide windows starting at each
position (with power-of-two wraparound) that contain no empty slot; the
denominator is `capacity*16`, not `capacity`, and windows at every offset
are counted, not only the aligned ones. -/
theorem abseil_pr_group_full_spec (m : AbseilMap) :
    m.prGroupFull =
      (((List.range m.elements.length).countP
          (fun pos => (List.range 16).all
            (fun i => !(m.elementAt (pos + i) == none)))) : ℚ) /
        (m.elements.length : ℚ) := by
  unfold AbseilMap.prGroupFull AbseilMap.numFull
  congr 2
  apply List.countP_congr
  intro pos _
  rw [windowFull_iff m pos]
  simp [List.all_eq_true]

/-- C3 counterexample: a 1-group table holding only the key 129 at slot 1,
slot 0 empty.  Looking up key 1 (same low 7 bits as 129, same home window,
no match) visits one window: the code returns 1 comparison and 0 hops,
while the claim's accounting (comparisons only before the first
match-or-empty position, one hop per window visited) yields 0 comparisons
and 1 hop. -/
theorem abseil_find_accounting_counterexample :
    abseilCex3.find 1 5 = some (⟨0, 1⟩, false) ∧
    abseilCex3.claimFind 1 5 = some (⟨1, 0⟩, false) ∧
    abseilCex3.find 1 5 ≠ abseilCex3.claimFind 1 5 := by
  refine ⟨by decide, by decide, by decide⟩

lemma cmpsFrom_eq_countP (m : AbseilMap) (hash : Nat) :
    ∀ n first, m.cmpsFrom hash first n =
      ((List.range n).map (fun i => m.elementAt (first + i))).countP
        (low7cmp hash) := by
  intro n
  induction n with
  | zero =>
      intro first
      simp [AbseilMap.cmpsFrom]
  | succ n ih =>
      intro first
      rw [AbseilMap.cmpsFrom, List.range_succ_eq_map, List.map_cons,
        List.countP_cons, List.map_map]
      have hmap : (List.range n).map ((fun i => m.elementAt (first + i)) ∘ Nat.succ) =
          (List.range n).map (fun i => m.elementAt (first + 1 + i)) := by
        apply List.map_congr_left
        intro a _
        show m.elementAt (first + (a + 1)) = m.elementAt (first + 1 + a)
        congr 1
        omega
      rw [hmap, ← ih (first + 1)]
      rcases h : m.elementAt first with _ | x
      · simp [low7cmp, h]
      · by_cases hx : x &&& 127 = hash &&& 127
        · simp [low7cmp, h, hx]
          omega
        · simp [low7cmp, h, hx]

lemma getD_map_range {α : Type} (f : Nat → α) (n i : Nat) (d : α) (h : i < n) :
    ((List.range n).map f).getD i d = f i := by
  rw [List.getD_eq_getElem?_getD]
  rw [List.getElem?_map]
  rw [List.getElem?_range h]
  rfl

lemma findIdx_eq_of_getD {α : Type} (d : α) (p : α → Bool) :
    ∀ (l : List α) (j : Nat), j ≤ l.length →
      (∀ i < j, p (l.getD i d) = false) →
      (j < l.length → p (l.getD j d) = true) →
      l.findIdx p = j := by
  intro l
  induction l with
  | nil =>
      intro j hj _ _
      simp at hj
      simp [hj, List.findIdx, List.findIdx.go]
  | cons a t ih =>
      intro j hj h1 h2
      match j with
      | 0 =>
          have hpa : p a = true := by
            have := h2 (Nat.succ_pos t.length)
            simpa using this
          simp [List.findIdx_cons, hpa]
      | j + 1 =>
          have hpa : p a = false := by
            have := h1 0 (by omega)
            simpa using this
          rw [List.findIdx_cons, hpa]
          have ht : t.findIdx p = j := by
            apply ih j (by simp at hj; omega)
            · intro i hi
              have := h1 (i + 1) (by omega)
              simpa using this
            · intro hlt
              have := h2 (by simp only [List.length_cons]; omega)
              simpa using this
          simp [ht]

lemma windowSlots_length (m : AbseilMap) (pos0 : Nat) :
    (m.windowSlots pos0).length = 16 := by
  simp [AbseilMap.windowSlots]

lemma windowSlots_contains_iff (m : AbseilMap) (pos0 : Nat) (x : Option Nat) :
    (m.windowSlots pos0).contains x = true ↔
      ∃ i < 16, m.elementAt (pos0 + i) = x := by
  have hmem : ((m.windowSlots pos0).contains x = true) ↔ x ∈ m.windowSlots pos0 := by
    simp [List.contains]
  rw [hmem]
  simp only [AbseilMap.windowSlots, List.mem_map, List.mem_range]

lemma scanFind_end_iff (m : AbseilMap) (x : Option Nat) (pos0 : Nat) :
    m.scanFind pos0 (pos0 + 16) x = pos0 + 16 ↔
      ∀ i < 16, m.elementAt (pos0 + i) ≠ x := by
  unfold AbseilMap.scanFind
  rw [show pos0 + 16 - pos0 = 16 by omega]
  exact scanFrom_eq_end_iff m x 16 pos0

lemma scanFind_ne_end_iff_contains (m : AbseilMap) (x : Option Nat) (pos0 : Nat) :
    m.scanFind pos0 (pos0 + 16) x ≠ pos0 + 16 ↔
      (m.windowSlots pos0).contains x = true := by
  rw [windowSlots_contains_iff, Ne, scanFind_end_iff]
  push_neg
  rfl

lemma scanFind_pos1 (m : AbseilMap) (hash pos0 : Nat) :
    m.scanFind pos0 (pos0 + 16) (some hash) = pos0 + m.matchIdx hash pos0 := by
  obtain ⟨j, hj1, hj2, hj3, hj4⟩ := scanFrom_spec m (some hash) 16 pos0
  have hsf : m.scanFind pos0 (pos0 + 16) (some hash) = pos0 + j := by
    unfold AbseilMap.scanFind
    rw [show pos0 + 16 - pos0 = 16 by omega]
    exact hj2
  rw [hsf]
  congr 1
  symm
  unfold AbseilMap.matchIdx
  apply findIdx_eq_of_getD none
  · rw [windowSlots_length]
    exact hj1
  · intro i hi
    rw [AbseilMap.windowSlots, getD_map_range _ 16 i none (by omega)]
    simp [hj3 i hi]
  · intro hlt
    rw [windowSlots_length] at hlt
    rw [AbseilMap.windowSlots, getD_map_range _ 16 j none hlt]
    simp [hj4 hlt]

lemma matchIdx_le (m : AbseilMap) (hash pos0 : Nat) :
    m.matchIdx hash pos0 ≤ 16 := by
  have h := @List.findIdx_le_length (Option Nat) (fun o => o == some hash)
    (m.windowSlots pos0)
  rwa [windowSlots_length] at h

lemma numCmps_eq_windowCmps (m : AbseilMap) (hash pos0 : Nat) :
    m.numCmps pos0 (m.scanFind pos0 (pos0 + 16) (some hash)) hash =
      m.windowCmps hash pos0 := by
  rw [scanFind_pos1]
  unfold AbseilMap.numCmps
  rw [show pos0 + m.matchIdx hash pos0 - pos0 = m.matchIdx hash pos0 by omega]
  rw [cmpsFrom_eq_countP]
  unfold AbseilMap.windowCmps
  conv_rhs => rw [AbseilMap.windowSlots]
  rw [← List.map_take, List.take_range, Nat.min_eq_left (matchIdx_le m hash pos0)]

/-- C3 amended: for each window `abseil_map::find` visits, the comparisons
accumulated are the occupied slots with matching low 7 bits among the slots
strictly before the first exact-match position — the WHOLE window when
there is no match, regardless of empty slots; one extra comparison and
found=true on a match; otherwise found=false when the window (scanned in
full) holds an empty slot, else probing continues; `num_hops` is bumped
only when probing continues to another window (the first window visited
contributes no hop). -/
theorem abseil_find_window_accounting (m : AbseilMap) (hash off : Nat)
    (pb : Prober) (info : FindInfo) (fuel : Nat) :
    m.findLoop hash off pb info (fuel + 1) =
      (if (m.windowSlots (pb.pos * 16 + off)).contains (some hash) then
        some (⟨info.num_hops,
          info.num_cmps + m.windowCmps hash (pb.pos * 16 + off) + 1⟩, true)
      else if (m.windowSlots (pb.pos * 16 + off)).contains none then
        some (⟨info.num_hops,
          info.num_cmps + m.windowCmps hash (pb.pos * 16 + off)⟩, false)
      else
        m.findLoop hash off ((pb.next (m.elements.length / 16 - 1)).1)
          ⟨info.num_hops + 1,
            info.num_cmps + m.windowCmps hash (pb.pos * 16 + off)⟩ fuel) := by
  have hcmps := numCmps_eq_windowCmps m hash (pb.pos * 16 + off)
  simp only [AbseilMap.findLoop]
  by_cases hm : (m.windowSlots (pb.pos * 16 + off)).contains (some hash) = true
  · have hne : m.scanFind (pb.pos * 16 + off) (pb.pos * 16 + off + 16) (some hash) ≠
        pb.pos * 16 + off + 16 :=
      (scanFind_ne_end_iff_contains m (some hash) _).mpr hm
    rw [if_pos hne, if_pos hm, hcmps]
  · have heq : m.scanFind (pb.pos * 16 + off) (pb.pos * 16 + off + 16) (some hash) =
        pb.pos * 16 + off + 16 := by
      by_contra hne
      exact hm ((scanFind_ne_end_iff_contains m (some hash) _).mp hne)
    rw [if_neg (by rw [heq]; exact fun h => h rfl), if_neg hm, hcmps]
    by_cases he : (m.windowSlots (pb.pos * 16 + off)).contains none = true
    · have hne2 : m.scanFind (pb.pos * 16 + off) (pb.pos * 16 + off + 16) none ≠
          pb.pos * 16 + off + 16 :=
        (scanFind_ne_end_iff_contains m none _).mpr he
      rw [if_pos hne2, if_pos he]
    · have heq2 : m.scanFind (pb.pos * 16 + off) (pb.pos * 16 + off + 16) none =
          pb.pos * 16 + off + 16 := by
        by_contra hne2
        exact he ((scanFind_ne_end_iff_contains m none _).mp hne2)
      rw [if_neg (by rw [heq2]; exact fun h => h rfl), if_neg he]

/-- C4 counterexample: one group holding `[5, 261]` (both keys have reduced
hash 5).  Looking up key 5 finds it at the first cell: the code accumulates
exactly 1 comparison for the group, while the claim's count — all occupied
keys of the group with matching reduced discriminant (2 of them) plus one
confirming comparison — is 3. -/
theorem boost_find_cmps_counterexample :
    boostCex4.find 5 3 = some (⟨0, 1⟩, true) ∧
    (boostCex4.grp 0).claimGroupCmps 5 = 3 ∧
    (boostCex4.grp 0).claimGroupCmps 5 ≠ 1 := by
  refine ⟨by decide, by decide, by decide⟩

lemma takeWhile_eq_take_findIdx {α : Type} (l : List α) (p : α → Bool) :
    l.takeWhile (fun a => !(p a)) = l.take (l.findIdx p) := by
  induction l with
  | nil => rfl
  | cons a t ih =>
      rw [List.findIdx_cons]
      cases h : p a
      · simp [List.takeWhile_cons, h, ih]
      · simp [List.takeWhile_cons, h]

lemma bgroup_cmps_eq (g : BGroup) (hash : Nat) :
    g.cmps hash = g.groupCmps hash := by
  unfold BGroup.cmps BGroup.groupCmps
  rw [takeWhile_eq_take_findIdx g.elements (fun x => x == hash)]

lemma findIdx_beq_eq_length (l : List Nat) (x : Nat) (h : x ∉ l) :
    l.findIdx (fun a => a == x) = l.length := by
  apply findIdx_eq_of_getD 0
  · exact Nat.le_refl _
  · intro i hi
    rw [List.getD_eq_getElem l 0 hi]
    have hmem : l[i] ∈ l := List.getElem_mem hi
    exact beq_eq_false_iff_ne.mpr (fun he => h (he ▸ hmem))
  · intro h'
    omega

/-- C4 amended: for each group `boost_map::find` visits, the comparisons
accumulated are the occupied keys with matching reduced discriminant among
the keys strictly BEFORE the position of the exact match (all occupied keys
when there is no match), plus one for the confirming match when found; the
reduced discriminant is the key's low byte with byte values 0 and 1
remapped to 8 and 9. -/
theorem boost_find_group_accounting (m : BoostMap) (hash : Nat) (pb : Prober)
    (info : FindInfo) (fuel : Nat) :
    (m.findLoop hash pb info (fuel + 1) =
      (if (m.grp pb.pos).elements.contains hash then
        some (⟨info.num_hops,
          info.num_cmps + (m.grp pb.pos).groupCmps hash + 1⟩, true)
      else if (m.grp pb.pos).overflow &&& (1 <<< (hash % 8)) = 0 then
        some (⟨info.num_hops, info.num_cmps +
          (m.grp pb.pos).elements.countP
            (fun x => reducedHash x == reducedHash hash)⟩, false)
      else
        m.findLoop hash ((pb.next (m.groups.length - 1)).1)
          ⟨info.num_hops + 1,
            info.num_cmps + (m.grp pb.pos).groupCmps hash⟩ fuel)) ∧
    ∀ h, reducedHash h =
      (if h % 256 = 0 then 8 else if h % 256 = 1 then 9 else h % 256) := by
  constructor
  · simp only [BoostMap.findLoop]
    rw [bgroup_cmps_eq]
    by_cases hm : (m.grp pb.pos).elements.contains hash = true
    · rw [if_pos hm, if_pos hm]
    · have hnotmem : hash ∉ (m.grp pb.pos).elements := by
        intro hmem
        exact hm (by simpa [List.contains] using hmem)
      have hall : (m.grp pb.pos).groupCmps hash =
          (m.grp pb.pos).elements.countP
            (fun x => reducedHash x == reducedHash hash) := by
        unfold BGroup.groupCmps
        rw [findIdx_beq_eq_length _ _ hnotmem, List.take_length]
      rw [if_neg hm, if_neg hm, hall]
  · intro h
    rfl

lemma bitWidthAux_le_iff : ∀ fuel n k, n ≤ fuel → (bitWidthAux fuel n ≤ k ↔ n < 2 ^ k) := by
  intro fuel
  induction fuel with
  | zero =>
      intro n k h
      have : n = 0 := by omega
      subst this
      simp [bitWidthAux]
  | succ f ih =>
      intro n k h
      by_cases h0 : n = 0
      · subst h0
        simp [bitWidthAux]
      · rw [bitWidthAux, if_neg h0]
        match k with
        | 0 =>
            simp only [Nat.pow_zero]
            omega
        | k + 1 =>
            rw [Nat.add_le_add_iff_right, ih (n / 2) k (by omega)]
            rw [Nat.pow_succ]
            omega

lemma bitWidth_eq_size (n : Nat) : bitWidth n = Nat.size n := by
  have h1 := (bitWidthAux_le_iff n n (Nat.size n) (Nat.le_refl n)).mpr (Nat.lt_size_self n)
  have h2 : n < 2 ^ bitWidth n :=
    (bitWidthAux_le_iff n n (bitWidth n) (Nat.le_refl n)).mp (Nat.le_refl _)
  have h3 := Nat.size_le.mpr h2
  unfold bitWidth at h3 ⊢
  omega

lemma bitWidth_two_pow_sub_one (k : Nat) : bitWidth (2 ^ k - 1) = k := by
  rw [bitWidth_eq_size]
  rcases Nat.eq_zero_or_pos k with h | h
  · subst h
    simp
  · have hp : 1 ≤ 2 ^ k := Nat.one_le_two_pow
    have h1 : Nat.size (2 ^ k - 1) ≤ k := Nat.size_le.mpr (by omega)
    have h2 : k - 1 < Nat.size (2 ^ k - 1) := Nat.lt_size.mpr (by
      have := Nat.pow_lt_pow_right (a := 2) (by norm_num) (by omega : k - 1 < k)
      omega)
    omega

lemma boost_positionFor_lt (k : Nat) (m : BoostMap) (hash : Nat)
    (hcap : m.groups.length = 2 ^ k) : m.positionFor hash < 2 ^ k := by
  unfold BoostMap.positionFor BoostMap.shift
  rw [hcap, bitWidth_two_pow_sub_one]
  rw [Nat.shiftRight_eq_div_pow]
  rcases Nat.le_total k 64 with hk | hk
  · apply Nat.div_lt_of_lt_mul
    calc hash % 2 ^ 64 < 2 ^ 64 := Nat.mod_lt _ (by positivity)
    _ = 2 ^ (64 - k) * 2 ^ k := by rw [← Nat.pow_add]; congr 1; omega
  · have h0 : 64 - k = 0 := by omega
    rw [h0, Nat.pow_zero, Nat.div_one]
    calc hash % 2 ^ 64 < 2 ^ 64 := Nat.mod_lt _ (by positivity)
    _ ≤ 2 ^ k := Nat.pow_le_pow_right (by norm_num) hk

lemma abseil_positionFor_lt (j : Nat) (m : AbseilMap) (hash : Nat)
    (hcap : m.elements.length = 2 ^ j) : m.positionFor hash < 2 ^ j := by
  unfold AbseilMap.positionFor
  rw [hcap, Nat.and_pow_two_sub_one_eq_mod]
  exact Nat.mod_lt _ (by positivity)

lemma getD_set_general {α : Type} (a d : α) :
    ∀ (l : List α) (i j : Nat),
      (l.set i a).getD j d = if i = j ∧ i < l.length then a else l.getD j d := by
  intro l
  induction l with
  | nil =>
      intro i j
      simp
  | cons b t ih =>
      intro i j
      match i, j with
      | 0, 0 => simp
      | 0, j + 1 => simp
      | i + 1, 0 => simp
      | i + 1, j + 1 =>
          simp only [List.set_cons_succ, List.getD_cons_succ, List.length_cons]
          rw [ih i j]
          by_cases h : i = j ∧ i < t.length
          · rw [if_pos h, if_pos (by omega)]
          · rw [if_neg h, if_neg (by intro hc; exact h ⟨by omega, by omega⟩)]

lemma setGrp_length (m : BoostMap) (i : Nat) (g : BGroup) :
    (m.setGrp i g).groups.length = m.groups.length :=
  List.length_set m.groups i g

lemma grp_setGrp (m : BoostMap) (i : Nat) (g : BGroup) (j : Nat) :
    (m.setGrp i g).grp j =
      if i = j ∧ i < m.groups.length then g else m.grp j :=
  getD_set_general g BGroup.empty m.groups i j

lemma setAt_length (m : AbseilMap) (pos : Nat) (x : Option Nat) :
    (m.setAt pos x).elements.length = m.elements.length :=
  List.length_set m.elements _ x

lemma and_one_shiftLeft_ne_zero_iff (a j : Nat) :
    a &&& (1 <<< j) ≠ 0 ↔ a.testBit j = true := by
  rw [Nat.one_shiftLeft, Nat.and_two_pow]
  rcases h : a.testBit j with h1 | h1
  · simp
  · simp

lemma proberAt_pos_le (s mask : Nat) (hs : s ≤ mask) :
    ∀ i, (proberAt s mask i).pos ≤ mask := by
  intro i
  match i with
  | 0 => exact hs
  | i + 1 =>
      rw [proberAt_succ_pos]
      exact Nat.and_le_right

lemma boost_insertLoop_length (hash : Nat) :
    ∀ (fuel : Nat) (m : BoostMap) (pb : Prober) (m2 : BoostMap),
      m.insertLoop hash pb fuel = some m2 →
      m2.groups.length = m.groups.length := by
  intro fuel
  induction fuel with
  | zero =>
      intro m pb m2 h
      simp [BoostMap.insertLoop] at h
  | succ f ih =>
      intro m pb m2 h
      simp only [BoostMap.insertLoop] at h
      by_cases hr : (m.grp pb.pos).elements.length < 15
      · rw [if_pos hr] at h
        obtain rfl := Option.some.inj h
        rw [setGrp_length]
      · rw [if_neg hr] at h
        have := ih _ _ _ h
        rw [this, setGrp_length]

lemma boost_insertLoop_elements (hash : Nat) :
    ∀ (fuel : Nat) (m : BoostMap) (pb : Prober) (m2 : BoostMap),
      m.insertLoop hash pb fuel = some m2 →
      ∀ g, (m2.grp g).elements = (m.grp g).elements ∨
        ((m2.grp g).elements = (m.grp g).elements ++ [hash] ∧
          (m.grp g).elements.length < 15) := by
  intro fuel
  induction fuel with
  | zero =>
      intro m pb m2 h
      simp [BoostMap.insertLoop] at h
  | succ f ih =>
      intro m pb m2 h g
      simp only [BoostMap.insertLoop] at h
      by_cases hr : (m.grp pb.pos).elements.length < 15
      · rw [if_pos hr] at h
        obtain rfl := Option.some.inj h
        rw [grp_setGrp]
        by_cases hc : pb.pos = g ∧ pb.pos < m.groups.length
        · rw [if_pos hc]
          right
          rw [← hc.1]
          exact ⟨rfl, hr⟩
        · rw [if_neg hc]
          left
          rfl
      · rw [if_neg hr] at h
        have hsame : ∀ g2,
            ((m.setGrp pb.pos
              ⟨(m.grp pb.pos).elements,
               (m.grp pb.pos).overflow ||| (1 <<< (hash % 8))⟩).grp g2).elements =
            (m.grp g2).elements := by
          intro g2
          rw [grp_setGrp]
          by_cases hc : pb.pos = g2 ∧ pb.pos < m.groups.length
          · rw [if_pos hc, ← hc.1]
          · rw [if_neg hc]
        have := ih _ _ _ h g
        rw [hsame g] at this
        exact this

lemma boost_insertLoop_overflow (hash : Nat) :
    ∀ (fuel : Nat) (m : BoostMap) (pb : Prober) (m2 : BoostMap),
      m.insertLoop hash pb fuel = some m2 →
      ∀ g j, (m.grp g).overflow.testBit j = true →
        (m2.grp g).overflow.testBit j = true := by
  intro fuel
  induction fuel with
  | zero =>
      intro m pb m2 h
      simp [BoostMap.insertLoop] at h
  | succ f ih =>
      intro m pb m2 h g j hbit
      simp only [BoostMap.insertLoop] at h
      by_cases hr : (m.grp pb.pos).elements.length < 15
      · rw [if_pos hr] at h
        obtain rfl := Option.some.inj h
        rw [grp_setGrp]
        by_cases hc : pb.pos = g ∧ pb.pos < m.groups.length
        · rw [if_pos hc]
          rw [← hc.1] at hbit
          exact hbit
        · rw [if_neg hc]
          exact hbit
      · rw [if_neg hr] at h
        apply ih _ _ _ h g j
        rw [grp_setGrp]
        by_cases hc : pb.pos = g ∧ pb.pos < m.groups.length
        · rw [if_pos hc]
          rw [← hc.1] at hbit
          rw [Nat.testBit_or, hbit]
          rfl
        · rw [if_neg hc]
          exact hbit

lemma boost_findLoop_stops (m : BoostMap) (hash s : Nat) :
    ∀ (fuel i0 j : Nat) (info : FindInfo), i0 ≤ j → j - i0 < fuel →
      (∀ i, i0 ≤ i → i < j →
        ¬ (m.grp ((proberAt s (m.groups.length - 1) i).pos)).elements.contains hash = true ∧
        (m.grp ((proberAt s (m.groups.length - 1) i).pos)).overflow &&& (1 <<< (hash % 8)) ≠ 0) →
      ¬ (m.grp ((proberAt s (m.groups.length - 1) j).pos)).elements.contains hash = true →
      (m.grp ((proberAt s (m.groups.length - 1) j).pos)).overflow &&& (1 <<< (hash % 8)) = 0 →
      ∃ c, m.findLoop hash (proberAt s (m.groups.length - 1) i0) info fuel =
        some (⟨info.num_hops + (j - i0), c⟩, false) := by
  intro fuel
  induction fuel with
  | zero =>
      intro i0 j info h1 h2 _ _ _
      omega
  | succ f ih =>
      intro i0 j info hij hf hcont hnm hbit
      rcases Nat.eq_or_lt_of_le hij with he | hlt
      · subst he
        refine ⟨info.num_cmps +
          (m.grp ((proberAt s (m.groups.length - 1) i0).pos)).cmps hash, ?_⟩
        simp only [BoostMap.findLoop]
        rw [if_neg hnm, if_pos hbit]
        rw [Nat.sub_self, Nat.add_zero]
      · obtain ⟨hnm0, hbit0⟩ := hcont i0 (Nat.le_refl _) hlt
        obtain ⟨c, hc⟩ := ih (i0 + 1) j
          ⟨info.num_hops + 1, info.num_cmps +
            (m.grp ((proberAt s (m.groups.length - 1) i0).pos)).cmps hash⟩
          (by omega) (by omega)
          (fun i ha hb => hcont i (by omega) hb) hnm hbit
        refine ⟨c, ?_⟩
        simp only [BoostMap.findLoop]
        rw [if_neg hnm0, if_neg hbit0]
        have harg : ((proberAt s (m.groups.length - 1) i0).next (m.groups.length - 1)).1 =
            proberAt s (m.groups.length - 1) (i0 + 1) := rfl
        rw [harg]
        have hh : info.num_hops + (j - i0) = info.num_hops + 1 + (j - (i0 + 1)) := by
          omega
        rw [hh]
        exact hc

lemma boost_findLoop_false_sound (m : BoostMap) (hash s : Nat) :
    ∀ (fuel i0 : Nat) (info info2 : FindInfo),
      m.findLoop hash (proberAt s (m.groups.length - 1) i0) info fuel =
        some (info2, false) →
      ∃ j, i0 ≤ j ∧ info2.num_hops = info.num_hops + (j - i0) ∧
        (∀ i, i0 ≤ i → i < j →
          ¬ (m.grp ((proberAt s (m.groups.length - 1) i).pos)).elements.contains hash = true ∧
          (m.grp ((proberAt s (m.groups.length - 1) i).pos)).overflow &&& (1 <<< (hash % 8)) ≠ 0) ∧
        ¬ (m.grp ((proberAt s (m.groups.length - 1) j).pos)).elements.contains hash = true ∧
        (m.grp ((proberAt s (m.groups.length - 1) j).pos)).overflow &&& (1 <<< (hash % 8)) = 0 := by
  intro fuel
  induction fuel with
  | zero =>
      intro i0 info info2 h
      simp [BoostMap.findLoop] at h
  | succ f ih =>
      intro i0 info info2 h
      simp only [BoostMap.findLoop] at h
      by_cases hm : (m.grp ((proberAt s (m.groups.length - 1) i0).pos)).elements.contains hash = true
      · rw [if_pos hm] at h
        simp at h
      · rw [if_neg hm] at h
        by_cases hb : (m.grp ((proberAt s (m.groups.length - 1) i0).pos)).overflow &&&
            (1 <<< (hash % 8)) = 0
        · rw [if_pos hb] at h
          have hpair := Option.some.inj h
          have hinfo : (⟨info.num_hops, info.num_cmps +
              (m.grp ((proberAt s (m.groups.length - 1) i0).pos)).cmps hash⟩ : FindInfo) =
              info2 := congrArg Prod.fst hpair
          refine ⟨i0, Nat.le_refl _, ?_, by omega, hm, hb⟩
          rw [← hinfo]
          show info.num_hops = info.num_hops + (i0 - i0)
          omega
        · rw [if_neg hb] at h
          have harg : ((proberAt s (m.groups.length - 1) i0).next (m.groups.length - 1)).1 =
              proberAt s (m.groups.length - 1) (i0 + 1) := rfl
          rw [harg] at h
          obtain ⟨j, hj0, hj1, hj2, hj3, hj4⟩ := ih (i0 + 1) _ _ h
          refine ⟨j, by omega, by simp at hj1; omega, ?_, hj3, hj4⟩
          intro i ha hb2
          rcases Nat.eq_or_lt_of_le ha with he | hlt
          · subst he
            exact ⟨hm, hb⟩
          · exact hj2 i (by omega) hb2

lemma boost_insertLoop_marks (hash s mask : Nat) :
    ∀ (fuel : Nat) (m : BoostMap) (i0 : Nat) (m2 : BoostMap),
      mask = m.groups.length - 1 →
      s < m.groups.length →
      m.insertLoop hash (proberAt s mask i0) fuel = some m2 →
      ∃ p, i0 ≤ p ∧ p - i0 < fuel ∧
        (∀ i, i0 ≤ i → i < p →
          15 ≤ (m.grp ((proberAt s mask i).pos)).elements.length ∧
          (m2.grp ((proberAt s mask i).pos)).overflow &&&
            (1 <<< (hash % 8)) ≠ 0) ∧
        (m.grp ((proberAt s mask p).pos)).elements.length < 15 ∧
        (m2.grp ((proberAt s mask p).pos)).elements =
          (m.grp ((proberAt s mask p).pos)).elements ++ [hash] := by
  intro fuel
  induction fuel with
  | zero =>
      intro m i0 m2 hmask hs h
      simp [BoostMap.insertLoop] at h
  | succ f ih =>
      intro m i0 m2 hmask hs h
      have hin : (proberAt s mask i0).pos < m.groups.length := by
        have := proberAt_pos_le s mask (by omega) i0
        omega
      simp only [BoostMap.insertLoop] at h
      by_cases hr : (m.grp ((proberAt s mask i0).pos)).elements.length < 15
      · rw [if_pos hr] at h
        obtain rfl := Option.some.inj h
        refine ⟨i0, Nat.le_refl _, by omega, fun i ha hb => by omega, hr, ?_⟩
        rw [grp_setGrp, if_pos ⟨rfl, hin⟩]
      · rw [if_neg hr] at h
        rw [← hmask] at h
        have harg : ((proberAt s mask i0).next mask).1 = proberAt s mask (i0 + 1) := rfl
        rw [harg] at h
        have hmask2 : mask = (m.setGrp (proberAt s mask i0).pos
            ⟨(m.grp ((proberAt s mask i0).pos)).elements,
             (m.grp ((proberAt s mask i0).pos)).overflow |||
               (1 <<< (hash % 8))⟩).groups.length - 1 := by
          rw [setGrp_length]
          exact hmask
        have hs2 : s < (m.setGrp (proberAt s mask i0).pos
            ⟨(m.grp ((proberAt s mask i0).pos)).elements,
             (m.grp ((proberAt s mask i0).pos)).overflow |||
               (1 <<< (hash % 8))⟩).groups.length := by
          rw [setGrp_length]
          exact hs
        obtain ⟨p, hp0, hp1, hp2, hp3, hp4⟩ := ih _ (i0 + 1) m2 hmask2 hs2 h
        have hsame : ∀ g2, ((m.setGrp (proberAt s mask i0).pos
            ⟨(m.grp ((proberAt s mask i0).pos)).elements,
             (m.grp ((proberAt s mask i0).pos)).overflow |||
               (1 <<< (hash % 8))⟩).grp g2).elements = (m.grp g2).elements := by
          intro g2
          rw [grp_setGrp]
          by_cases hc : (proberAt s mask i0).pos = g2 ∧
              (proberAt s mask i0).pos < m.groups.length
          · rw [if_pos hc, ← hc.1]
          · rw [if_neg hc]
        have hbit_mm : ((m.setGrp (proberAt s mask i0).pos
            ⟨(m.grp ((proberAt s mask i0).pos)).elements,
             (m.grp ((proberAt s mask i0).pos)).overflow |||
               (1 <<< (hash % 8))⟩).grp
              ((proberAt s mask i0).pos)).overflow.testBit (hash % 8) = true := by
          rw [grp_setGrp, if_pos ⟨rfl, hin⟩]
          rw [Nat.testBit_or, Nat.one_shiftLeft, Nat.testBit_two_pow_self]
          rw [Bool.or_true]
        have hbit_m2 : (m2.grp ((proberAt s mask i0).pos)).overflow &&&
            (1 <<< (hash % 8)) ≠ 0 := by
          rw [and_one_shiftLeft_ne_zero_iff]
          exact boost_insertLoop_overflow hash f _ _ m2 h _ _ hbit_mm
        refine ⟨p, by omega, by omega, ?_, ?_, ?_⟩
        · intro i ha hb
          rcases Nat.eq_or_lt_of_le ha with he | hlt
          · subst he
            exact ⟨by omega, hbit_m2⟩
          · have := hp2 i (by omega) hb
            rw [hsame] at this
            exact this
        · have := hp3
          rw [hsame] at this
          exact this
        · have := hp4
          rw [hsame] at this
          exact this

/-- C5: a `boost_map` lookup returns found=false exactly at the first
probed group with no exact match and an unset overflow bit for
`hash % 8` (earlier probed groups all had no match and a set bit, and the
not-found result reports exactly that many hops); when a group has no
match but a set bit, probing continues; and a terminating insertion sets
the overflow bit for `hash % 8` on every full group it walks past before
placing the key in the first group with room. -/
theorem boost_find_stop_and_insert_marks (k : Nat) (m : BoostMap)
    (hash fuel : Nat) (hcap : m.groups.length = 2 ^ k) :
    boostFindStopSound m hash fuel ∧ boostFindStopComplete m hash fuel ∧
      boostInsertMarks m hash fuel := by
  refine ⟨?_, ?_, ?_⟩
  · intro info h
    obtain ⟨j, hj0, hj1, hj2, hj3, hj4⟩ :=
      boost_findLoop_false_sound m hash (m.positionFor hash) fuel 0 ⟨0, 0⟩ info h
    have hjeq : info.num_hops = j := by
      rw [hj1]
      show 0 + (j - 0) = j
      omega
    refine ⟨?_, ?_, ?_⟩
    · intro i hi
      exact hj2 i (by omega) (by omega)
    · show ¬ (m.grp (m.probeAt hash info.num_hops)).elements.contains hash = true
      rw [hjeq]
      exact hj3
    · show (m.grp (m.probeAt hash info.num_hops)).overflow &&& (1 <<< (hash % 8)) = 0
      rw [hjeq]
      exact hj4
  · intro j hjf hcont hnm hbit
    obtain ⟨c, hc⟩ := boost_findLoop_stops m hash (m.positionFor hash) fuel 0 j
      ⟨0, 0⟩ (by omega) (by omega) (fun i _ hb => hcont i hb) hnm hbit
    refine ⟨c, ?_⟩
    have he : ((⟨0, 0⟩ : FindInfo).num_hops + (j - 0)) = j := by
      show 0 + (j - 0) = j
      omega
    rw [he] at hc
    exact hc
  · intro m2 h
    have hs : m.positionFor hash < m.groups.length := by
      rw [hcap]
      exact boost_positionFor_lt k m hash hcap
    obtain ⟨p, hp0, hp1, hp2, hp3, hp4⟩ :=
      boost_insertLoop_marks hash (m.positionFor hash) (m.groups.length - 1)
        fuel m 0 m2 rfl hs h
    exact ⟨p, by omega, fun i hi => hp2 i (by omega) hi, hp3, hp4⟩

theorem boost_find_stop_and_insert_marks_witness :
    (BoostMap.init 2).groups.length = 2 ^ 1 ∧
    (boostFindStopSound (BoostMap.init 2) 5 4 ∧
     boostFindStopComplete (BoostMap.init 2) 5 4 ∧
     boostInsertMarks (BoostMap.init 2) 5 4) :=
  ⟨by decide, boost_find_stop_and_insert_marks 1 (BoostMap.init 2) 5 4 (by decide)⟩

lemma list_contains_iff (l : List Nat) (a : Nat) : l.contains a = true ↔ a ∈ l := by
  simp [List.contains]

lemma boost_findLoop_true_cmps (m : BoostMap) (hash : Nat) :
    ∀ (fuel : Nat) (pb : Prober) (info info2 : FindInfo),
      m.findLoop hash pb info fuel = some (info2, true) → 1 ≤ info2.num_cmps := by
  intro fuel
  induction fuel with
  | zero =>
      intro pb info info2 h
      simp [BoostMap.findLoop] at h
  | succ f ih =>
      intro pb info info2 h
      simp only [BoostMap.findLoop] at h
      by_cases hm : (m.grp pb.pos).elements.contains hash = true
      · rw [if_pos hm] at h
        have hinfo : (⟨info.num_hops,
            info.num_cmps + (m.grp pb.pos).cmps hash + 1⟩ : FindInfo) = info2 :=
          congrArg Prod.fst (Option.some.inj h)
        rw [← hinfo]
        exact Nat.succ_le_succ (Nat.zero_le _)
      · rw [if_neg hm] at h
        by_cases hb : (m.grp pb.pos).overflow &&& (1 <<< (hash % 8)) = 0
        · rw [if_pos hb] at h
          simp at h
        · rw [if_neg hb] at h
          exact ih _ _ _ h

lemma abseil_findLoop_true_cmps (m : AbseilMap) (hash off : Nat) :
    ∀ (fuel : Nat) (pb : Prober) (info info2 : FindInfo),
      m.findLoop hash off pb info fuel = some (info2, true) → 1 ≤ info2.num_cmps := by
  intro fuel
  induction fuel with
  | zero =>
      intro pb info info2 h
      simp [AbseilMap.findLoop] at h
  | succ f ih =>
      intro pb info info2 h
      simp only [AbseilMap.findLoop] at h
      by_cases hm : m.scanFind (pb.pos * 16 + off) (pb.pos * 16 + off + 16) (some hash) ≠
          pb.pos * 16 + off + 16
      · rw [if_pos hm] at h
        have hinfo : (⟨info.num_hops, info.num_cmps +
            m.numCmps (pb.pos * 16 + off)
              (m.scanFind (pb.pos * 16 + off) (pb.pos * 16 + off + 16) (some hash))
              hash + 1⟩ : FindInfo) = info2 :=
          congrArg Prod.fst (Option.some.inj h)
        rw [← hinfo]
        exact Nat.succ_le_succ (Nat.zero_le _)
      · rw [if_neg hm] at h
        by_cases hb : m.scanFind (pb.pos * 16 + off) (pb.pos * 16 + off + 16) none ≠
            pb.pos * 16 + off + 16
        · rw [if_pos hb] at h
          simp at h
        · rw [if_neg hb] at h
          exact ih _ _ _ h

lemma boost_insertLoop_find (hash mask : Nat) :
    ∀ (fuel : Nat) (m : BoostMap) (pb : Prober) (m2 : BoostMap) (info : FindInfo),
      mask = m.groups.length - 1 →
      pb.pos < m.groups.length →
      m.insertLoop hash pb fuel = some m2 →
      ∃ info2, m2.findLoop hash pb info fuel = some (info2, true) ∧
        1 ≤ info2.num_cmps := by
  intro fuel
  induction fuel with
  | zero =>
      intro m pb m2 info _ _ h
      simp [BoostMap.insertLoop] at h
  | succ f ih =>
      intro m pb m2 info hmask hpos h
      simp only [BoostMap.insertLoop] at h
      by_cases hr : (m.grp pb.pos).elements.length < 15
      · rw [if_pos hr] at h
        obtain rfl := Option.some.inj h
        have hgrp : ((m.setGrp pb.pos
            ⟨(m.grp pb.pos).elements ++ [hash], (m.grp pb.pos).overflow⟩).grp pb.pos) =
            ⟨(m.grp pb.pos).elements ++ [hash], (m.grp pb.pos).overflow⟩ := by
          rw [grp_setGrp, if_pos ⟨rfl, hpos⟩]
        have hmem : ((m.setGrp pb.pos
            ⟨(m.grp pb.pos).elements ++ [hash], (m.grp pb.pos).overflow⟩).grp
              pb.pos).elements.contains hash = true := by
          rw [hgrp, list_contains_iff]
          simp
        refine ⟨⟨info.num_hops, info.num_cmps +
          ((m.setGrp pb.pos ⟨(m.grp pb.pos).elements ++ [hash],
            (m.grp pb.pos).overflow⟩).grp pb.pos).cmps hash + 1⟩, ?_,
          Nat.succ_le_succ (Nat.zero_le _)⟩
        simp only [BoostMap.findLoop]
        rw [if_pos hmem]
      · rw [if_neg hr] at h
        rw [← hmask] at h
        by_cases hc : (m2.grp pb.pos).elements.contains hash = true
        · refine ⟨⟨info.num_hops, info.num_cmps + (m2.grp pb.pos).cmps hash + 1⟩,
            ?_, Nat.succ_le_succ (Nat.zero_le _)⟩
          simp only [BoostMap.findLoop]
          rw [if_pos hc]
        · have hbit_mm : ((m.setGrp pb.pos ⟨(m.grp pb.pos).elements,
              (m.grp pb.pos).overflow ||| (1 <<< (hash % 8))⟩).grp
                pb.pos).overflow.testBit (hash % 8) = true := by
            rw [grp_setGrp, if_pos ⟨rfl, hpos⟩, Nat.testBit_or, Nat.one_shiftLeft,
              Nat.testBit_two_pow_self, Bool.or_true]
          have hbit_m2 : (m2.grp pb.pos).overflow &&& (1 <<< (hash % 8)) ≠ 0 := by
            rw [and_one_shiftLeft_ne_zero_iff]
            exact boost_insertLoop_overflow hash f _ _ m2 h _ _ hbit_mm
          have hlen2 : m2.groups.length = m.groups.length := by
            have := boost_insertLoop_length hash f _ _ m2 h
            rw [this, setGrp_length]
          obtain ⟨info2, hfind, hcmps⟩ := ih _ ((pb.next mask).1) m2
            ⟨info.num_hops + 1, info.num_cmps + (m2.grp pb.pos).cmps hash⟩
            (by rw [setGrp_length]; exact hmask)
            (by
              rw [setGrp_length]
              have h1 : (pb.next mask).1.pos ≤ mask := Nat.and_le_right
              omega)
            h
          refine ⟨info2, ?_, hcmps⟩
          simp only [BoostMap.findLoop]
          rw [if_neg hc, if_neg hbit_m2]
          rw [hlen2, ← hmask]
          exact hfind

lemma elementAt_setAt (m : AbseilMap) (p q : Nat) (x : Option Nat) :
    (m.setAt p x).elementAt q =
      if p &&& (m.elements.length - 1) = q &&& (m.elements.length - 1) ∧
          p &&& (m.elements.length - 1) < m.elements.length then x
      else m.elementAt q := by
  unfold AbseilMap.setAt AbseilMap.elementAt
  simp only [List.length_set]
  exact getD_set_general x none m.elements _ _

lemma abseil_insertLoop_length (hash off : Nat) :
    ∀ (fuel : Nat) (m : AbseilMap) (pb : Prober) (m2 : AbseilMap),
      m.insertLoop hash off pb fuel = some m2 →
      m2.elements.length = m.elements.length := by
  intro fuel
  induction fuel with
  | zero =>
      intro m pb m2 h
      simp [AbseilMap.insertLoop] at h
  | succ f ih =>
      intro m pb m2 h
      simp only [AbseilMap.insertLoop] at h
      by_cases hp : m.scanFind (pb.pos * 16 + off) (pb.pos * 16 + off + 16) none ≠
          pb.pos * 16 + off + 16
      · rw [if_pos hp] at h
        obtain rfl := Option.some.inj h
        exact setAt_length _ _ _
      · rw [if_neg hp] at h
        exact ih _ _ _ h

lemma abseil_insertLoop_getD (hash off : Nat) :
    ∀ (fuel : Nat) (m : AbseilMap) (pb : Prober) (m2 : AbseilMap),
      m.insertLoop hash off pb fuel = some m2 →
      ∀ p x, m.elements.getD p none = some x → m2.elements.getD p none = some x := by
  intro fuel
  induction fuel with
  | zero =>
      intro m pb m2 h
      simp [AbseilMap.insertLoop] at h
  | succ f ih =>
      intro m pb m2 h p x hp
      simp only [AbseilMap.insertLoop] at h
      by_cases hpl : m.scanFind (pb.pos * 16 + off) (pb.pos * 16 + off + 16) none ≠
          pb.pos * 16 + off + 16
      · rw [if_pos hpl] at h
        obtain rfl := Option.some.inj h
        obtain ⟨j, hj1, hj2, hj3, hj4⟩ := scanFrom_spec m none 16 (pb.pos * 16 + off)
        have hpos1 : m.scanFind (pb.pos * 16 + off) (pb.pos * 16 + off + 16) none =
            pb.pos * 16 + off + j := by
          unfold AbseilMap.scanFind
          rw [show pb.pos * 16 + off + 16 - (pb.pos * 16 + off) = 16 by omega]
          exact hj2
        have hjlt : j < 16 := by
          rcases Nat.eq_or_lt_of_le hj1 with he | hlt
          · exfalso
            apply hpl
            rw [hpos1, he]
          · exact hlt
        have hempty : m.elementAt (pb.pos * 16 + off + j) = none := hj4 hjlt
        show ((m.setAt (m.scanFind (pb.pos * 16 + off) (pb.pos * 16 + off + 16) none)
          (some hash)).elements).getD p none = some x
        rw [hpos1]
        unfold AbseilMap.setAt
        rw [getD_set_general]
        by_cases hcond : (pb.pos * 16 + off + j) &&& (m.elements.length - 1) = p ∧
            (pb.pos * 16 + off + j) &&& (m.elements.length - 1) < m.elements.length
        · exfalso
          unfold AbseilMap.elementAt at hempty
          rw [hcond.1] at hempty
          rw [hempty] at hp
          exact Option.noConfusion hp
        · rw [if_neg hcond]
          exact hp
      · rw [if_neg hpl] at h
        exact ih _ _ _ h _ _ hp

lemma abseil_insertLoop_elementAt (hash off : Nat)
    (fuel : Nat) (m : AbseilMap) (pb : Prober) (m2 : AbseilMap)
    (h : m.insertLoop hash off pb fuel = some m2)
    (p : Nat) (hp : m.elementAt p ≠ none) : m2.elementAt p ≠ none := by
  rcases ho : m.elementAt p with _ | x
  · exact absurd ho hp
  · have hlen : m2.elements.length = m.elements.length :=
      abseil_insertLoop_length hash off fuel m pb m2 h
    unfold AbseilMap.elementAt at ho ⊢
    rw [hlen]
    rw [abseil_insertLoop_getD hash off fuel m pb m2 h _ x ho]
    exact Option.noConfusion

lemma abseil_insertLoop_find (hash off mask : Nat) :
    ∀ (fuel : Nat) (m : AbseilMap) (pb : Prober) (m2 : AbseilMap) (info : FindInfo),
      mask = m.elements.length / 16 - 1 →
      0 < m.elements.length →
      m.insertLoop hash off pb fuel = some m2 →
      ∃ info2, m2.findLoop hash off pb info fuel = some (info2, true) ∧
        1 ≤ info2.num_cmps := by
  intro fuel
  induction fuel with
  | zero =>
      intro m pb m2 info _ _ h
      simp [AbseilMap.insertLoop] at h
  | succ f ih =>
      intro m pb m2 info hmask hlen h
      simp only [AbseilMap.insertLoop] at h
      by_cases hpl : m.scanFind (pb.pos * 16 + off) (pb.pos * 16 + off + 16) none ≠
          pb.pos * 16 + off + 16
      · rw [if_pos hpl] at h
        obtain rfl := Option.some.inj h
        obtain ⟨j, hj1, hj2, hj3, hj4⟩ := scanFrom_spec m none 16 (pb.pos * 16 + off)
        have hpos1 : m.scanFind (pb.pos * 16 + off) (pb.pos * 16 + off + 16) none =
            pb.pos * 16 + off + j := by
          unfold AbseilMap.scanFind
          rw [show pb.pos * 16 + off + 16 - (pb.pos * 16 + off) = 16 by omega]
          exact hj2
        have hjlt : j < 16 := by
          rcases Nat.eq_or_lt_of_le hj1 with he | hlt
          · exact absurd (by rw [hpos1, he]) hpl
          · exact hlt
        have hidx : (pb.pos * 16 + off + j) &&& (m.elements.length - 1) <
            m.elements.length := by
          have := Nat.and_le_right (n := pb.pos * 16 + off + j)
            (m := m.elements.length - 1)
          omega
        have hset : (m.setAt (pb.pos * 16 + off + j) (some hash)).elementAt
            (pb.pos * 16 + off + j) = some hash := by
          rw [elementAt_setAt, if_pos ⟨rfl, hidx⟩]
        rw [hpos1]
        have hscan : (m.setAt (pb.pos * 16 + off + j) (some hash)).scanFind
            (pb.pos * 16 + off) (pb.pos * 16 + off + 16) (some hash) ≠
            pb.pos * 16 + off + 16 := by
          rw [Ne, scanFind_end_iff]
          push_neg
          exact ⟨j, hjlt, hset⟩
        refine ⟨⟨info.num_hops, info.num_cmps +
          (m.setAt (pb.pos * 16 + off + j) (some hash)).numCmps (pb.pos * 16 + off)
            ((m.setAt (pb.pos * 16 + off + j) (some hash)).scanFind
              (pb.pos * 16 + off) (pb.pos * 16 + off + 16) (some hash)) hash + 1⟩,
          ?_, Nat.succ_le_succ (Nat.zero_le _)⟩
        simp only [AbseilMap.findLoop]
        rw [if_pos hscan]
      · rw [if_neg hpl] at h
        have hnoempty : ∀ i < 16, m.elementAt (pb.pos * 16 + off + i) ≠ none := by
          rw [← scanFind_end_iff]
          by_contra hne
          exact hpl hne
        rw [← hmask] at h
        by_cases hc : m2.scanFind (pb.pos * 16 + off) (pb.pos * 16 + off + 16)
            (some hash) ≠ pb.pos * 16 + off + 16
        · refine ⟨⟨info.num_hops, info.num_cmps +
            m2.numCmps (pb.pos * 16 + off)
              (m2.scanFind (pb.pos * 16 + off) (pb.pos * 16 + off + 16) (some hash))
              hash + 1⟩, ?_, Nat.succ_le_succ (Nat.zero_le _)⟩
          simp only [AbseilMap.findLoop]
          rw [if_pos hc]
        · have hnoempty2 : ∀ i < 16, m2.elementAt (pb.pos * 16 + off + i) ≠ none :=
            fun i hi => abseil_insertLoop_elementAt hash off f m _ m2 h _
              (hnoempty i hi)
          have hscan2 : ¬ (m2.scanFind (pb.pos * 16 + off) (pb.pos * 16 + off + 16)
              none ≠ pb.pos * 16 + off + 16) := by
            rw [not_not]
            exact (scanFind_end_iff m2 none _).mpr hnoempty2
          obtain ⟨info2, hfind, hcm⟩ := ih m ((pb.next mask).1) m2
            ⟨info.num_hops + 1, info.num_cmps +
              m2.numCmps (pb.pos * 16 + off)
                (m2.scanFind (pb.pos * 16 + off) (pb.pos * 16 + off + 16) (some hash))
                hash⟩ hmask hlen h
          refine ⟨info2, ?_, hcm⟩
          simp only [AbseilMap.findLoop]
          rw [if_neg hc, if_neg hscan2]
          have hlen2 : m2.elements.length = m.elements.length :=
            abseil_insertLoop_length hash off f m _ m2 h
          rw [hlen2, ← hmask]
          exact hfind

/-- C7: for both variants, whenever an insertion of a key terminates
(whether it placed the key or found it already present), a subsequent
lookup of that key returns found=true with zero or more hops and at least
one comparison. -/
theorem insert_find_roundtrip (kb : Nat) (mb : BoostMap) (ma : AbseilMap)
    (hashB hashA fuelB fuelA : Nat)
    (hb : mb.groups.length = 2 ^ kb) (ha : 0 < ma.elements.length) :
    boostInsertFindRoundtrip mb hashB fuelB ∧
      abseilInsertFindRoundtrip ma hashA fuelA := by
  constructor
  · intro m2 b h
    unfold BoostMap.insert at h
    rcases hf : mb.find hashB fuelB with _ | r
    · rw [hf] at h
      simp at h
    · rcases r with ⟨i, found⟩
      rw [hf] at h
      cases found
      · rcases hins : mb.insertLoop hashB (Prober.start (mb.positionFor hashB))
            fuelB with _ | mm
        · rw [hins] at h
          simp at h
        · rw [hins] at h
          have hp := Option.some.inj h
          rw [Prod.mk.injEq] at hp
          obtain ⟨hm2, hb2⟩ := hp
          subst hm2
          have hposlt : (Prober.start (mb.positionFor hashB)).pos <
              mb.groups.length := by
            show mb.positionFor hashB < mb.groups.length
            rw [hb]
            exact boost_positionFor_lt kb mb hashB hb
          obtain ⟨info2, hfind2, hcm⟩ := boost_insertLoop_find hashB
            (mb.groups.length - 1) fuelB mb _ mm ⟨0, 0⟩ rfl hposlt hins
          have hpos_eq : mm.positionFor hashB = mb.positionFor hashB := by
            unfold BoostMap.positionFor BoostMap.shift
            rw [boost_insertLoop_length hashB fuelB mb _ mm hins]
          refine ⟨info2, ?_, Nat.zero_le _, hcm⟩
          unfold BoostMap.find
          rw [hpos_eq]
          exact hfind2
      · have hp := Option.some.inj h
        rw [Prod.mk.injEq] at hp
        obtain ⟨hm2, hb2⟩ := hp
        subst hm2
        exact ⟨i, hf, Nat.zero_le _,
          boost_findLoop_true_cmps mb hashB fuelB _ ⟨0, 0⟩ i hf⟩
  · intro m2 b h
    unfold AbseilMap.insert at h
    rcases hf : ma.find hashA fuelA with _ | r
    · rw [hf] at h
      simp at h
    · rcases r with ⟨i, found⟩
      rw [hf] at h
      cases found
      · dsimp only at h
        rcases hins : ma.insertLoop hashA (ma.positionFor hashA % 16)
            (Prober.start (ma.positionFor hashA / 16)) fuelA with _ | mm
        · rw [hins] at h
          simp at h
        · rw [hins] at h
          have hp := Option.some.inj h
          rw [Prod.mk.injEq] at hp
          obtain ⟨hm2, hb2⟩ := hp
          subst hm2
          obtain ⟨info2, hfind2, hcm⟩ := abseil_insertLoop_find hashA
            (ma.positionFor hashA % 16) (ma.elements.length / 16 - 1) fuelA ma _
            mm ⟨0, 0⟩ rfl ha hins
          have hpos_eq : mm.positionFor hashA = ma.positionFor hashA := by
            unfold AbseilMap.positionFor
            rw [abseil_insertLoop_length hashA (ma.positionFor hashA % 16) fuelA
              ma _ mm hins]
          refine ⟨info2, ?_, Nat.zero_le _, hcm⟩
          unfold AbseilMap.find
          rw [hpos_eq]
          exact hfind2
      · have hp := Option.some.inj h
        rw [Prod.mk.injEq] at hp
        obtain ⟨hm2, hb2⟩ := hp
        subst hm2
        exact ⟨i, hf, Nat.zero_le _,
          abseil_findLoop_true_cmps ma hashA _ fuelA _ ⟨0, 0⟩ i hf⟩

theorem insert_find_roundtrip_witness :
    ((BoostMap.init 2).groups.length = 2 ^ 1 ∧
      0 < (AbseilMap.init 1).elements.length) ∧
    (boostInsertFindRoundtrip (BoostMap.init 2) 5 3 ∧
     abseilInsertFindRoundtrip (AbseilMap.init 1) 129 3) :=
  ⟨⟨by decide, by decide⟩,
    insert_find_roundtrip 1 (BoostMap.init 2) (AbseilMap.init 1) 5 129 3 3
      (by decide) (by decide)⟩

lemma countP_mono_pointwise {α : Type} (d : α) (p q : α → Bool) :
    ∀ (l l2 : List α), l.length = l2.length →
      (∀ i, i < l.length → p (l.getD i d) = true → q (l2.getD i d) = true) →
      l.countP p ≤ l2.countP q := by
  intro l
  induction l with
  | nil =>
      intro l2 h1 h2
      simp
  | cons a t ih =>
      intro l2 h1 h2
      match l2 with
      | [] => simp at h1
      | b :: t2 =>
          rw [List.countP_cons, List.countP_cons]
          have ht : t.countP p ≤ t2.countP q := by
            apply ih t2 (by simpa using h1)
            intro i hi hp
            have := h2 (i + 1) (by simp only [List.length_cons]; omega)
              (by simpa using hp)
            simpa using this
          by_cases hpa : p a = true
          · have hqb : q b = true := by
              have := h2 0 (by simp only [List.length_cons]; omega)
                (by simpa using hpa)
              simpa using this
            rw [if_pos hpa, if_pos hqb]
            omega
          · rw [if_neg hpa]
            by_cases hqb : q b = true
            · rw [if_pos hqb]
              omega
            · rw [if_neg hqb]
              omega

lemma rat_div_mono (a b : Nat) (c : ℚ) (hc : 0 ≤ c) (h : a ≤ b) :
    (a : ℚ) / c ≤ (b : ℚ) / c :=
  div_le_div_of_nonneg_right (by exact_mod_cast h) hc

lemma boost_insertLoop_numFull (hash fuel : Nat) (m : BoostMap) (pb : Prober)
    (m2 : BoostMap) (h : m.insertLoop hash pb fuel = some m2) :
    m.numFull ≤ m2.numFull := by
  unfold BoostMap.numFull
  apply countP_mono_pointwise BGroup.empty
  · exact (boost_insertLoop_length hash fuel m pb m2 h).symm
  · intro i hi hp
    have hel := boost_insertLoop_elements hash fuel m pb m2 h i
    have hp15 : (m.grp i).elements.length = 15 := by
      have h15 : ((m.grp i).elements.length == 15) = true := hp
      simpa using h15
    rcases hel with he | ⟨_, hlt⟩
    · show ((m2.grp i).elements.length == 15) = true
      rw [he, hp15]
      rfl
    · omega

lemma boost_insert_monotone_lemma (m : BoostMap) (hash fuel : Nat) :
    boostInsertMonotone m hash fuel := by
  intro m2 b h
  unfold BoostMap.insert at h
  rcases hf : m.find hash fuel with _ | r
  · rw [hf] at h
    simp at h
  · rcases r with ⟨i, found⟩
    rw [hf] at h
    cases found
    · rcases hins : m.insertLoop hash (Prober.start (m.positionFor hash))
          fuel with _ | mm
      · rw [hins] at h
        simp at h
      · rw [hins] at h
        have hp := Option.some.inj h
        rw [Prod.mk.injEq] at hp
        obtain ⟨hm2, _⟩ := hp
        subst hm2
        refine ⟨?_, ?_, ?_, ?_⟩
        · intro g x hx
          rcases boost_insertLoop_elements hash fuel m _ _ hins g with he | ⟨ha, _⟩
          · rw [he]
            exact hx
          · rw [ha]
            exact List.mem_append_left _ hx
        · intro g
          rcases boost_insertLoop_elements hash fuel m _ _ hins g with he | ⟨ha, _⟩
          · rw [he]
          · rw [ha]
            simp
        · intro g j hb
          exact boost_insertLoop_overflow hash fuel m _ _ hins g j hb
        · unfold BoostMap.prGroupFull
          rw [boost_insertLoop_length hash fuel m _ _ hins]
          exact rat_div_mono _ _ _ (by positivity)
            (boost_insertLoop_numFull hash fuel m _ _ hins)
    · have hp := Option.some.inj h
      rw [Prod.mk.injEq] at hp
      obtain ⟨hm2, _⟩ := hp
      subst hm2
      exact ⟨fun g x hx => hx, fun g => Nat.le_refl _, fun g j hb => hb,
        le_refl _⟩

lemma abseil_insertLoop_numFull (hash off fuel : Nat) (m : AbseilMap)
    (pb : Prober) (m2 : AbseilMap) (h : m.insertLoop hash off pb fuel = some m2) :
    m.numFull ≤ m2.numFull := by
  unfold AbseilMap.numFull
  rw [abseil_insertLoop_length hash off fuel m pb m2 h]
  apply List.countP_mono_left
  intro pos _ hw
  rw [windowFull_iff] at hw ⊢
  intro i hi
  exact abseil_insertLoop_elementAt hash off fuel m pb m2 h _ (hw i hi)

lemma abseil_insert_monotone_lemma (m : AbseilMap) (hash fuel : Nat) :
    abseilInsertMonotone m hash fuel := by
  intro m2 b h
  unfold AbseilMap.insert at h
  rcases hf : m.find hash fuel with _ | r
  · rw [hf] at h
    simp at h
  · rcases r with ⟨i, found⟩
    rw [hf] at h
    cases found
    · dsimp only at h
      rcases hins : m.insertLoop hash (m.positionFor hash % 16)
          (Prober.start (m.positionFor hash / 16)) fuel with _ | mm
      · rw [hins] at h
        simp at h
      · rw [hins] at h
        have hp := Option.some.inj h
        rw [Prod.mk.injEq] at hp
        obtain ⟨hm2, _⟩ := hp
        subst hm2
        refine ⟨?_, ?_⟩
        · intro p x hx
          exact abseil_insertLoop_getD hash _ fuel m _ _ hins p x hx
        · unfold AbseilMap.prGroupFull
          rw [abseil_insertLoop_length hash _ fuel m _ _ hins]
          exact rat_div_mono _ _ _ (by positivity)
            (abseil_insertLoop_numFull hash _ fuel m _ _ hins)
    · have hp := Option.some.inj h
      rw [Prod.mk.injEq] at hp
      obtain ⟨hm2, _⟩ := hp
      subst hm2
      exact ⟨fun p x hx => hx, le_refl _⟩

lemma boost_seq_monotone_lemma (fuel : Nat) :
    ∀ (ks : List Nat) (m m2 : BoostMap), m.insertSeq ks fuel = some m2 →
      m.prGroupFull ≤ m2.prGroupFull := by
  intro ks
  induction ks with
  | nil =>
      intro m m2 h
      have : m = m2 := Option.some.inj h
      rw [this]
  | cons k t ih =>
      intro m m2 h
      unfold BoostMap.insertSeq at h
      rw [List.foldl_cons] at h
      rcases hstep : m.insert k fuel with _ | r
      · exfalso
        have hnone : ((some m).bind
            (fun mm => (mm.insert k fuel).map Prod.fst)) = none := by
          simp [hstep]
        rw [hnone] at h
        have hfn : ∀ (l : List Nat), l.foldl
            (fun (acc : Option BoostMap) kk =>
              acc.bind (fun mm => (mm.insert kk fuel).map Prod.fst))
            none = none := by
          intro l
          induction l with
          | nil => rfl
          | cons a t2 ih2 => simpa using ih2
        rw [hfn t] at h
        exact Option.noConfusion h
      · rcases r with ⟨mA, b⟩
        have hsome : ((some m).bind
            (fun mm => (mm.insert k fuel).map Prod.fst)) = some mA := by
          simp [hstep]
        rw [hsome] at h
        have h1 : m.prGroupFull ≤ mA.prGroupFull :=
          (boost_insert_monotone_lemma m k fuel mA b hstep).2.2.2
        have h2 : mA.prGroupFull ≤ m2.prGroupFull := ih mA m2 h
        exact le_trans h1 h2

lemma abseil_seq_monotone_lemma (fuel : Nat) :
    ∀ (ks : List Nat) (m m2 : AbseilMap), m.insertSeq ks fuel = some m2 →
      m.prGroupFull ≤ m2.prGroupFull := by
  intro ks
  induction ks with
  | nil =>
      intro m m2 h
      have : m = m2 := Option.some.inj h
      rw [this]
  | cons k t ih =>
      intro m m2 h
      unfold AbseilMap.insertSeq at h
      rw [List.foldl_cons] at h
      rcases hstep : m.insert k fuel with _ | r
      · exfalso
        have hnone : ((some m).bind
            (fun mm => (mm.insert k fuel).map Prod.fst)) = none := by
          simp [hstep]
        rw [hnone] at h
        have hfn : ∀ (l : List Nat), l.foldl
            (fun (acc : Option AbseilMap) kk =>
              acc.bind (fun mm => (mm.insert kk fuel).map Prod.fst))
            none = none := by
          intro l
          induction l with
          | nil => rfl
          | cons a t2 ih2 => simpa using ih2
        rw [hfn t] at h
        exact Option.noConfusion h
      · rcases r with ⟨mA, b⟩
        have hsome : ((some m).bind
            (fun mm => (mm.insert k fuel).map Prod.fst)) = some mA := by
          simp [hstep]
        rw [hsome] at h
        have h1 : m.prGroupFull ≤ mA.prGroupFull :=
          (abseil_insert_monotone_lemma m k fuel mA b hstep).2
        have h2 : mA.prGroupFull ≤ m2.prGroupFull := ih mA m2 h
        exact le_trans h1 h2

/-- C8: for both variants an insertion never removes a key, never shrinks a
group's occupancy, never clears a set overflow bit (variant A), never
re-empties or overwrites an occupied slot (variant B); consequently
`pr_group_full` is non-decreasing under one insertion and under any
terminating sequence of insertions.  (Lookups are pure functions of the
table in this embedding, mirroring the `const` lookup of the source.) -/
theorem insertion_monotonicity (mb : BoostMap) (ma : AbseilMap)
    (hashB hashA fuelB fuelA : Nat) :
    boostInsertMonotone mb hashB fuelB ∧ abseilInsertMonotone ma hashA fuelA ∧
      boostSeqPrMonotone mb fuelB ∧ abseilSeqPrMonotone ma fuelA :=
  ⟨boost_insert_monotone_lemma mb hashB fuelB,
   abseil_insert_monotone_lemma ma hashA fuelA,
   fun ks m2 h => boost_seq_monotone_lemma fuelB ks mb m2 h,
   fun ks m2 h => abseil_seq_monotone_lemma fuelA ks ma m2 h⟩

lemma boost_insertLoop_reaches (hash s mask : Nat) :
    ∀ (fuel : Nat) (m : BoostMap) (i0 p : Nat),
      mask = m.groups.length - 1 →
      s < m.groups.length →
      i0 ≤ p → p - i0 < fuel →
      (∀ i, i0 ≤ i → i < p →
        15 ≤ (m.grp ((proberAt s mask i).pos)).elements.length) →
      (m.grp ((proberAt s mask p).pos)).elements.length < 15 →
      ∃ m2, m.insertLoop hash (proberAt s mask i0) fuel = some m2 ∧
        (m2.grp ((proberAt s mask p).pos)).elements =
          (m.grp ((proberAt s mask p).pos)).elements ++ [hash] := by
  intro fuel
  induction fuel with
  | zero =>
      intro m i0 p _ _ h1 h2 _ _
      omega
  | succ f ih =>
      intro m i0 p hmask hs hi0p hf hcont hroom
      have hin : (proberAt s mask i0).pos < m.groups.length := by
        have := proberAt_pos_le s mask (by omega) i0
        omega
      simp only [BoostMap.insertLoop]
      rcases Nat.eq_or_lt_of_le hi0p with he | hlt
      · subst he
        rw [if_pos hroom]
        refine ⟨_, rfl, ?_⟩
        rw [grp_setGrp, if_pos ⟨rfl, hin⟩]
      · have hfull := hcont i0 (Nat.le_refl _) hlt
        rw [if_neg (by omega)]
        have harg : ((proberAt s mask i0).next mask).1 = proberAt s mask (i0 + 1) :=
          rfl
        rw [← hmask, harg]
        have hsame : ∀ g2, ((m.setGrp (proberAt s mask i0).pos
            ⟨(m.grp ((proberAt s mask i0).pos)).elements,
             (m.grp ((proberAt s mask i0).pos)).overflow |||
               (1 <<< (hash % 8))⟩).grp g2).elements = (m.grp g2).elements := by
          intro g2
          rw [grp_setGrp]
          by_cases hc : (proberAt s mask i0).pos = g2 ∧
              (proberAt s mask i0).pos < m.groups.length
          · rw [if_pos hc, ← hc.1]
          · rw [if_neg hc]
        obtain ⟨m2, hm2, hplace⟩ := ih (m.setGrp (proberAt s mask i0).pos
            ⟨(m.grp ((proberAt s mask i0).pos)).elements,
             (m.grp ((proberAt s mask i0).pos)).overflow |||
               (1 <<< (hash % 8))⟩) (i0 + 1) p
          (by rw [setGrp_length]; exact hmask)
          (by rw [setGrp_length]; exact hs)
          (by omega) (by omega)
          (fun j hj0 hjp => by
            rw [hsame]
            exact hcont j (by omega) hjp)
          (by rw [hsame]; exact hroom)
        refine ⟨m2, hm2, ?_⟩
        rw [hplace, hsame]

lemma boost_insertLoop_full_none (hash : Nat) :
    ∀ (fuel : Nat) (m : BoostMap) (pb : Prober),
      (∀ g, g < m.groups.length → 15 ≤ (m.grp g).elements.length) →
      pb.pos < m.groups.length →
      m.insertLoop hash pb fuel = none := by
  intro fuel
  induction fuel with
  | zero =>
      intro m pb _ _
      rfl
  | succ f ih =>
      intro m pb hfull hpos
      simp only [BoostMap.insertLoop]
      have h15 := hfull pb.pos hpos
      rw [if_neg (by omega)]
      apply ih
      · intro g hg
        rw [setGrp_length] at hg
        have hsame : ((m.setGrp pb.pos ⟨(m.grp pb.pos).elements,
            (m.grp pb.pos).overflow ||| (1 <<< (hash % 8))⟩).grp g).elements =
            (m.grp g).elements := by
          rw [grp_setGrp]
          by_cases hc : pb.pos = g ∧ pb.pos < m.groups.length
          · rw [if_pos hc, ← hc.1]
          · rw [if_neg hc]
        rw [hsame]
        exact hfull g hg
      · rw [setGrp_length]
        have h1 : (pb.next (m.groups.length - 1)).1.pos ≤ m.groups.length - 1 :=
          Nat.and_le_right
        omega

/-- C10: for `boost_map` with power-of-two capacity, the placement walk of
an insertion terminates within one probe cycle whenever some group has
fewer than 15 elements, appending the key to the first probed group with
room; and when every group is full the walk returns for no amount of fuel
— the loop never consults the prober's cycle-completion signal, so an
insertion into a full table never returns. -/
theorem boost_insert_termination (k : Nat) (m : BoostMap) (hash : Nat)
    (hcap : m.groups.length = 2 ^ k) :
    boostInsertTerminates m hash k ∧ boostInsertFullDiverges m hash := by
  constructor
  · intro hroom_ex
    obtain ⟨g, hg, hroom⟩ := hroom_ex
    have hs : m.positionFor hash < 2 ^ k := boost_positionFor_lt k m hash hcap
    have hmask : m.groups.length - 1 = 2 ^ k - 1 := by rw [hcap]
    obtain ⟨i, hi2k, hpi⟩ := probe_pos_surj k (m.positionFor hash) hs
      (v := g) (by rw [hcap] at hg; omega)
    have hPi : (m.grp (m.probeAt hash i)).elements.length < 15 := by
      unfold BoostMap.probeAt
      rw [hmask, hpi]
      exact hroom
    have hP : ∃ j, (m.grp (m.probeAt hash j)).elements.length < 15 := ⟨i, hPi⟩
    have hfind_le : Nat.find hP ≤ i := Nat.find_min' hP hPi
    have hplt : Nat.find hP < 2 ^ k := by omega
    obtain ⟨m2, hm2, hplace⟩ := boost_insertLoop_reaches hash (m.positionFor hash)
      (m.groups.length - 1) (2 ^ k) m 0 (Nat.find hP) rfl
      (by rw [hcap]; exact hs) (Nat.zero_le _) (by omega)
      (fun j hj0 hjp => by
        have hmin := Nat.find_min hP hjp
        unfold BoostMap.probeAt at hmin
        omega)
      (by
        have hspec := Nat.find_spec hP
        unfold BoostMap.probeAt at hspec
        exact hspec)
    refine ⟨m2, Nat.find hP, hm2, hplt, ?_, Nat.find_spec hP, ?_⟩
    · intro j hj
      have hmin := Nat.find_min hP hj
      omega
    · unfold BoostMap.probeAt
      exact hplace
  · intro hfull fuel pb hpos
    exact boost_insertLoop_full_none hash fuel m pb hfull hpos

theorem boost_insert_termination_witness :
    (BoostMap.init 2).groups.length = 2 ^ 1 ∧
    (boostInsertTerminates (BoostMap.init 2) 5 1 ∧
     boostInsertFullDiverges (BoostMap.init 2) 5) :=
  ⟨by decide, boost_insert_termination 1 (BoostMap.init 2) 5 (by decide)⟩

lemma getD_replicate_self {α : Type} (n i : Nat) (a : α) :
    (List.replicate n a).getD i a = a := by
  rcases Nat.lt_or_ge i n with h | h
  · rw [List.getD_eq_getElem _ _ (by simpa using h)]
    exact List.getElem_replicate _ _
  · rw [List.getD_eq_default _ _ (by simpa using h)]

lemma boost_init_prGroupFull (capacity : Nat) :
    (BoostMap.init capacity).prGroupFull = 0 := by
  unfold BoostMap.prGroupFull BoostMap.numFull BoostMap.init
  have hz : (List.replicate capacity BGroup.empty).countP
      (fun g => g.elements.length == 15) = 0 := by
    rw [List.countP_eq_zero]
    intro g hg
    have := List.eq_of_mem_replicate hg
    subst this
    decide
  rw [hz]
  simp

lemma abseil_init_elementAt (capacity p : Nat) :
    (AbseilMap.init capacity).elementAt p = none := by
  unfold AbseilMap.elementAt AbseilMap.init
  exact getD_replicate_self _ _ none

lemma abseil_init_prGroupFull (capacity : Nat) :
    (AbseilMap.init capacity).prGroupFull = 0 := by
  unfold AbseilMap.prGroupFull AbseilMap.numFull
  have hz : (List.range (AbseilMap.init capacity).elements.length).countP
      (fun pos => (AbseilMap.init capacity).windowFull pos) = 0 := by
    rw [List.countP_eq_zero]
    intro pos _
    unfold AbseilMap.windowFull AbseilMap.scanFind
    rw [show pos + 16 - pos = 16 by omega]
    rw [Bool.not_eq_true]
    show (((AbseilMap.init capacity).scanFrom none pos 16) == pos + 16) = false
    rw [show (AbseilMap.init capacity).scanFrom none pos 16 = pos by
      rw [AbseilMap.scanFrom, if_pos (abseil_init_elementAt capacity pos)]]
    exact beq_eq_false_iff_ne.mpr (by omega)
  rw [hz]
  simp

/-- C9: at load factor 0, for every capacity and both variants, the
driver's target insertion count is 0 and all four reported lookup means
are 0 (and so is the saturation probability): the division by the sample
count is guarded, so the empty sample yields 0 rather than a division by
zero. -/
theorem driver_zero_load_factor (capacity : Nat) (draw draw2 : Nat → Nat)
    (f1 f2 f3 g1 g2 g3 : Nat) :
    targetCount capacity 0 15 = 0 ∧ targetCount capacity 0 16 = 0 ∧
    boostStatsRow draw draw2 capacity 0 f1 f2 f3 = some ⟨0, 0, 0, 0, 0, 0⟩ ∧
    abseilStatsRow draw draw2 capacity 0 g1 g2 g3 = some ⟨0, 0, 0, 0, 0, 0⟩ := by
  have ht15 : targetCount capacity 0 15 = 0 := by
    unfold targetCount
    norm_num
  have ht16 : targetCount capacity 0 16 = 0 := by
    unfold targetCount
    norm_num
  refine ⟨ht15, ht16, ?_, ?_⟩
  · have hfill : boostFillLoop draw f1 0 (BoostMap.init capacity) 0 0 f2 =
        some (BoostMap.init capacity) := by
      cases f2 <;> simp [boostFillLoop]
    have hsucc : boostSuccLoop draw f1 (BoostMap.init capacity) 0 0 ⟨0, 0⟩ =
        some ⟨0, 0⟩ := rfl
    have huns : boostUnsuccLoop draw2 f1 0 (BoostMap.init capacity) 0 0 ⟨0, 0⟩ f3 =
        some ⟨0, 0⟩ := by
      cases f3 <;> simp [boostUnsuccLoop]
    simp only [boostStatsRow, ht15, hfill, hsucc, huns]
    rw [boost_init_prGroupFull]
    unfold meanOrZero
    norm_num
  · have hfill : abseilFillLoop draw g1 0 (AbseilMap.init capacity) 0 0 g2 =
        some (AbseilMap.init capacity) := by
      cases g2 <;> simp [abseilFillLoop]
    have hsucc : abseilSuccLoop draw g1 (AbseilMap.init capacity) 0 0 ⟨0, 0⟩ =
        some ⟨0, 0⟩ := rfl
    have huns : abseilUnsuccLoop draw2 g1 0 (AbseilMap.init capacity) 0 0 ⟨0, 0⟩ g3 =
        some ⟨0, 0⟩ := by
      cases g3 <;> simp [abseilUnsuccLoop]
    simp only [abseilStatsRow, ht16, hfill, hsucc, huns]
    rw [abseil_init_prGroupFull]
    unfold meanOrZero
    norm_num
